import Mathlib

/-!
Shallow embedding of `kharkov1926_llm_pipeline_v6.py` (Kharkov-1926 LLM pipeline).

Python values flowing through the pipeline (JSON-shaped dictionaries coming
back from model calls) are modelled by the inductive type `PyVal`.  Python
strings are modelled as `List Char` (`Str`); machine floats that only ever
carry confidences and percentages are modelled as `ℚ`.  Code that can raise a
Python exception is modelled in `Except PyErr`.  Network and filesystem
effects (model calls, image crops, file writes) are inputs/outputs of the
modelled functions: each model response is a `PyVal` parameter and the
downloader's network behaviour is an oracle parameter.
-/

/-- Python string, modelled as a list of characters. -/
abbrev Str := List Char

/-- Exceptions that the modelled code can raise. -/
inductive PyErr where
  | attributeError
  | typeError
  | valueError
  deriving Repr, DecidableEq

/-- Dynamic Python/JSON value: None, bool, number (int and float collapsed to
ℚ), string, insertion-ordered dict, list. -/
inductive PyVal where
  | none
  | bool (b : Bool)
  | num (q : ℚ)
  | str (s : Str)
  | dict (fields : List (String × PyVal))
  | list (items : List PyVal)

/-- Python truthiness of a value (`bool(v)`). -/
def pyTruthy : PyVal → Bool
  | .none => false
  | .bool b => b
  | .num q => decide (q ≠ 0)
  | .str s => !s.isEmpty
  | .dict l => !l.isEmpty
  | .list l => !l.isEmpty

/-- Python `a or b`: `a` if truthy, else `b`. -/
def pyOr (a b : PyVal) : PyVal := if pyTruthy a then a else b

/-- Dict lookup `d.get(k)` as an `Option` (first occurrence of the key). -/
def dictGet : List (String × PyVal) → String → Option PyVal
  | [], _ => Option.none
  | (k', v) :: t, k => if k' = k then some v else dictGet t k

/-- Dict item assignment `d[k] = v`: replaces the value in place if the key is
present (CPython keeps the original position), else appends. -/
def dictSet : List (String × PyVal) → String → PyVal → List (String × PyVal)
  | [], k, v => [(k, v)]
  | (k', v') :: t, k, v => if k' = k then (k, v) :: t else (k', v') :: dictSet t k v

/-- Key-membership test `k in d`. -/
def hasKey (l : List (String × PyVal)) (k : String) : Bool := (dictGet l k).isSome

/-- Is the value a dict (`isinstance(v, dict)`)? -/
def isDict : PyVal → Bool
  | .dict _ => true
  | _ => false

/-- Python substring test `needle in hay`. -/
def strIn (needle : Str) : Str → Bool
  | [] => needle.isEmpty
  | c :: t => needle.isPrefixOf (c :: t) || strIn needle t

/-- Whitespace characters stripped by `str.strip()` (ASCII subset of Python's
Unicode whitespace; all data handled by the pipeline is non-space Cyrillic). -/
def isSpacePy (c : Char) : Bool :=
  c = ' ' || c = '\t' || c = '\n' || c = '\r' || c = '\x0b' || c = '\x0c'

/-- Python `str.strip()`. -/
def stripPy (s : Str) : Str :=
  ((s.dropWhile isSpacePy).reverse.dropWhile isSpacePy).reverse

/-- Per-character model of Python `str.lower()` covering ASCII and the
Cyrillic letters the pipeline manipulates (other characters map to
themselves). -/
def charLowerPy (c : Char) : Char :=
  if 'А' ≤ c ∧ c ≤ 'Я' then Char.ofNat (c.toNat + 32)
  else if c = 'Ё' then 'ё'
  else if c = 'І' then 'і'
  else if c = 'Ї' then 'ї'
  else if c = 'Є' then 'є'
  else if c = 'Ґ' then 'ґ'
  else c.toLower

/-- Per-character model of Python `str.upper()` covering ASCII and the
Cyrillic letters the pipeline manipulates. -/
def charUpperPy (c : Char) : Char :=
  if 'а' ≤ c ∧ c ≤ 'я' then Char.ofNat (c.toNat - 32)
  else if c = 'ё' then 'Ё'
  else if c = 'і' then 'І'
  else if c = 'ї' then 'Ї'
  else if c = 'є' then 'Є'
  else if c = 'ґ' then 'Ґ'
  else c.toUpper

/-- Python `str.lower()`. -/
def lowerPy (s : Str) : Str := s.map charLowerPy

/-- Python `str.upper()`. -/
def upperPy (s : Str) : Str := s.map charUpperPy

/-! ### Initials normalization (source lines 250-267) -/

/-- CYR_LETTERS from the source: the 33 Russian letters followed by the four
Ukrainian variant letters. -/
def CYR_LETTERS : Str := "АБВГДЕЁЖЗИЙКЛМНОПРСТУФХЦЧШЩЪЫЬЭЮЯІЇЄҐ".data

/-- The 33-letter Russian alphabet (the prefix of CYR_LETTERS before the
variant letters). -/
def RU_LETTERS : Str := "АБВГДЕЁЖЗИЙКЛМНОПРСТУФХЦЧШЩЪЫЬЭЮЯ".data

/-- The four Ukrainian variant letters handled by the UA2RU table. -/
def UA_VARIANTS : Str := "ІЇЄҐ".data

/-- UA2RU translation table from the source (І→И, Ї→И, Є→Е, Ґ→Г). -/
def ua2ruChar (c : Char) : Char :=
  if c = 'І' then 'И'
  else if c = 'Ї' then 'И'
  else if c = 'Є' then 'Е'
  else if c = 'Ґ' then 'Г'
  else c

/-- normalize_initial_str from the source: map UA→RU after uppercasing, keep
only characters of CYR_LETTERS, return the first such character (or empty). -/
def normalize_initial_str (s : Str) : Str :=
  if s.isEmpty then []
  else
    let t := (upperPy s).map ua2ruChar
    let u := t.filter (fun ch => CYR_LETTERS.contains ch)
    match u with
    | [] => []
    | c :: _ => [c]

/-- normalize_initial_str applied to a dynamic value taken from a model
response: falsy values give the empty string (the `x or ""` at the call
sites), truthy non-strings raise AttributeError at `.upper()`. -/
def normalizeInitialVal (v : PyVal) : Except PyErr Str :=
  if pyTruthy v then
    match v with
    | .str s => .ok (normalize_initial_str s)
    | _ => .error .attributeError
  else .ok []

/-- normalize_initials_dict from the source. -/
def normalize_initials_dict (v : PyVal) : Except PyErr (Str × Str) :=
  match v with
  | .dict l => do
      let n ← normalizeInitialVal (pyOr ((dictGet l "name").getD .none) (.str []))
      let p ← normalizeInitialVal (pyOr ((dictGet l "patronymic").getD .none) (.str []))
      return (n, p)
  | _ => .ok ([], [])

/-! ### Nationality sanity filter (source lines 272-306) -/

/-- NON_JEWISH_MARKERS from the source. -/
def NON_JEWISH_MARKERS : List Str :=
  ["укр".data, "укра".data, "рус".data, "рос".data, "бел".data, "поля".data,
   "арм".data, "тат".data, "груз".data, "нем".data,
   "лат".data, "лит".data, "азер".data, "узб".data, "турк".data, "гре".data,
   "молд".data, "кара".data, "осет".data, "даг".data,
   "чеч".data, "болг".data, "кирг".data, "каз".data, "евен".data, "бур".data,
   "морд".data, "мар".data]

/-- JEWISH_MARKERS from the source. -/
def JEWISH_MARKERS : List Str := ["евр".data, "євр".data, "иуд".data]

/-- fix_nationality_sanity from the source.  A truthy non-string `match` field
raises AttributeError at `.lower()`, hence the `Except`. -/
def fix_nationality_sanity (v : PyVal) : Except PyErr PyVal :=
  match v with
  | .dict nat =>
    match pyOr ((dictGet nat "match").getD .none) (.str []) with
    | .str s0 =>
      let s := stripPy (lowerPy s0)
      if s.isEmpty then .ok (.dict nat)
      else
        match JEWISH_MARKERS.find? (fun j => strIn j s) with
        | some j =>
            .ok (.dict (dictSet (dictSet (dictSet nat "is_jewish" (.bool true))
              "confidence" (.num 1))
              "reason" (.dict [("forced_true_by_marker", .str j)])))
        | Option.none =>
          match NON_JEWISH_MARKERS.find? (fun m => strIn m s) with
          | some m =>
              .ok (.dict (dictSet (dictSet (dictSet nat "is_jewish" (.bool false))
                "confidence" (.num 1))
                "reason" (.dict [("forced_false_by_marker", .str m)])))
          | Option.none =>
              .ok (.dict (if hasKey nat "reason" then nat
                else dictSet nat "reason" (.dict [("as_reported", .bool true)])))
    | _ => .error .attributeError
  | other => .ok other

/-! ### FIO tokenization and reconciliation helpers (source lines 471-484) -/

/-- Character class of the regex `[А-ЯЁІЇЄҐа-яёіїєґ\-]` used by
split_fio_left. -/
def fioChar (c : Char) : Bool :=
  ('А' ≤ c && c ≤ 'Я') || ('а' ≤ c && c ≤ 'я') ||
  c = 'Ё' || c = 'ё' || c = 'І' || c = 'і' || c = 'Ї' || c = 'ї' ||
  c = 'Є' || c = 'є' || c = 'Ґ' || c = 'ґ' || c = '-'

/-- Accumulator pass of the run tokenizer: `cur` holds the characters of the
current run in reverse. -/
def fioRunsAux : Str → Str → List Str
  | [], cur => if cur.isEmpty then [] else [cur.reverse]
  | c :: t, cur =>
    if fioChar c then fioRunsAux t (c :: cur)
    else if cur.isEmpty then fioRunsAux t [] else cur.reverse :: fioRunsAux t []

/-- Maximal runs of `fioChar` characters, in order (re.findall of the token
regex). -/
def fioRuns (s : Str) : List Str := fioRunsAux s []

/-- split_fio_left from the source: None unless the value is a truthy string
with at least three tokens; then the first three tokens. -/
def split_fio_left (raw : PyVal) : Option (Str × Str × Str) :=
  match raw with
  | .str s =>
    if s.isEmpty then Option.none
    else
      match fioRuns s with
      | t0 :: t1 :: t2 :: _ => some (t0, t1, t2)
      | _ => Option.none
  | _ => Option.none

/-- initials_of_two from the source. -/
def initials_of_two (name patr : Str) : Str × Str :=
  (normalize_initial_str name, normalize_initial_str patr)

/-- Resolution tag written on an initials conflict. -/
def preferTag : Str := "prefer_left_fio_due_to_initials_conflict".data

/-- Resolution tag written when there is no conflict. -/
def okTag : Str := "ok_or_no_conflict".data

/-- The reconciliation step of run_pipeline (source lines 546-570).  A truthy
non-dict `raw` raises AttributeError at `.get`; a non-dict present `checks`
value raises TypeError at the item assignment. -/
def reconcileFio (init_name init_patr : Str) (fio : PyVal) : Except PyErr PyVal :=
  match fio with
  | .dict fd => do
      let rawd ← (match pyOr ((dictGet fd "raw").getD .none) (.dict []) with
        | .dict d => Except.ok d
        | _ => Except.error PyErr.attributeError)
      let raw_left := pyOr ((dictGet rawd "fio_left").getD .none) (.str [])
      match split_fio_left raw_left with
      | some (left_sur, left_name, left_pat) =>
          let (ln, lp) := initials_of_two left_name left_pat
          let checks0 ← (match dictGet fd "checks" with
            | Option.none => Except.ok ([] : List (String × PyVal))
            | some (.dict c) => Except.ok c
            | some _ => Except.error PyErr.typeError)
          let provided : PyVal :=
            .dict [("name", .str init_name), ("patronymic", .str init_patr)]
          let leftI : PyVal := .dict [("name", .str ln), ("patronymic", .str lp)]
          let checks1 := dictSet (dictSet checks0 "initials_provided" provided)
            "initials_left_raw" leftI
          let fdA := dictSet fd "checks" (.dict checks1)
          if (init_name ≠ [] ∧ ln ≠ [] ∧ init_name ≠ ln) ∨
             (init_patr ≠ [] ∧ lp ≠ [] ∧ init_patr ≠ lp) then
            let fdB := dictSet (dictSet fdA "surname" (.str left_sur)) "name" (.str left_name)
            let fdC := dictSet fdB "patronymic"
              (if left_pat ≠ [] then .str left_pat
               else (dictGet fdB "patronymic").getD .none)
            .ok (.dict (dictSet fdC "checks"
              (.dict (dictSet checks1 "resolution" (.str preferTag)))))
          else
            .ok (.dict (dictSet fdA "checks"
              (.dict (dictSet checks1 "resolution" (.str okTag)))))
      | Option.none => .ok (.dict fd)
  | other => .ok other

/-- The optional enforce-initials post-check of run_pipeline (source lines
540-544): null the patronymic when it is a string, the provided initial is
non-empty, and the uppercased patronymic does not start with the initial. -/
def enforcePatronymic (init_patr : Str) (fio : PyVal) : PyVal :=
  match fio with
  | .dict fd =>
    match dictGet fd "patronymic" with
    | some (.str pat) =>
        if init_patr ≠ [] ∧ ¬ (init_patr.isPrefixOf (upperPy pat)) then
          .dict (dictSet fd "patronymic" .none)
        else .dict fd
    | _ => .dict fd
  | v => v

/-! ### Python float() on dynamic values -/

/-- Decimal digit test. -/
def isDigitCh (c : Char) : Bool := '0' ≤ c && c ≤ '9'

/-- Numeric value of a digit string. -/
def digitsToNat (l : List Char) : ℕ := l.foldl (fun a c => a * 10 + (c.toNat - 48)) 0

/-- Exponent part of a float literal (after the letter e). -/
def parseExpPart (s : Str) : Option ℤ :=
  match s with
  | '+' :: t => if !t.isEmpty && t.all isDigitCh then some (digitsToNat t) else Option.none
  | '-' :: t => if !t.isEmpty && t.all isDigitCh then some (-(digitsToNat t : ℤ)) else Option.none
  | t => if !t.isEmpty && t.all isDigitCh then some (digitsToNat t) else Option.none

/-- Unsigned decimal literal accepted by Python float(): digits with an
optional fractional part and optional exponent. -/
def parseUnsignedDec (s : Str) : Option ℚ :=
  let ip := s.takeWhile isDigitCh
  let r1 := s.drop ip.length
  match r1 with
  | '.' :: r2 =>
      let fp := r2.takeWhile isDigitCh
      let r3 := r2.drop fp.length
      if ip.isEmpty && fp.isEmpty then Option.none
      else
        let base : ℚ := (digitsToNat ip : ℚ) + (digitsToNat fp : ℚ) / ((10 : ℚ) ^ fp.length)
        match r3 with
        | [] => some base
        | e :: r4 =>
            if e = 'e' || e = 'E' then
              (parseExpPart r4).map (fun ex => base * (10 : ℚ) ^ ex)
            else Option.none
  | _ =>
      if ip.isEmpty then Option.none
      else
        let base : ℚ := (digitsToNat ip : ℚ)
        match r1 with
        | [] => some base
        | e :: r4 =>
            if e = 'e' || e = 'E' then
              (parseExpPart r4).map (fun ex => base * (10 : ℚ) ^ ex)
            else Option.none

/-- Signed decimal literal. -/
def parseDecimal (s : Str) : Option ℚ :=
  match s with
  | '+' :: t => parseUnsignedDec t
  | '-' :: t => (parseUnsignedDec t).map Neg.neg
  | t => parseUnsignedDec t

/-- Python float(v) on the value shapes that occur in model responses. -/
def pyFloat : PyVal → Except PyErr ℚ
  | .num q => .ok q
  | .bool b => .ok (if b then 1 else 0)
  | .str s =>
      match parseDecimal (stripPy s) with
      | some q => .ok q
      | Option.none => .error .valueError
  | _ => .error .typeError

/-! ### Pipeline core (source lines 489-610, pure data flow) -/

/-- Manual-review predicate of run_pipeline (source lines 523-527):
`isinstance(nationality, dict) and nationality.get("is_jewish") is False and
float(nationality.get("confidence") or 0.0) < 1.0`, with Python's left-to-right
short-circuit evaluation. -/
def manualReviewFlag (nationality : PyVal) : Except PyErr Bool :=
  match nationality with
  | .dict nd =>
      match dictGet nd "is_jewish" with
      | some (.bool false) => do
          let q ← pyFloat (pyOr ((dictGet nd "confidence").getD .none) (.num 0))
          return decide (q < 1)
      | _ => .ok false
  | _ => .ok false

/-- Result of one pipeline invocation (the pure fields of the assembled
result dict: `outputs.nationality`, `outputs.right_band.normalized`,
`outputs.fio` and `flags.needs_manual_review`; file paths, crops and the
endpoint identity are I/O and are not modelled). -/
structure PipeOut where
  nationality : PyVal
  needs_manual_review : Bool
  r_surname : Str
  init_name : Str
  init_patr : Str
  right_raw : PyVal
  fio : PyVal

/-- The pure data flow of run_pipeline (source lines 518-591) over the three
model responses: sanity-filter the nationality response, compute the
manual-review flag, normalize the right-band response, apply the optional
enforce-initials post-check to the FIO response, reconcile it with the left
raw FIO, and assemble the outputs. -/
def runPipelineCore (natResp rightResp fioResp : PyVal)
    (enforce_initials : Bool) : Except PyErr PipeOut := do
  let nationality ← fix_nationality_sanity natResp
  let needs ← manualReviewFlag nationality
  let r_surname ← (match rightResp with
    | .dict rd =>
        (match pyOr ((dictGet rd "surname").getD .none) (.str []) with
          | .str s => Except.ok (stripPy s)
          | _ => Except.error PyErr.attributeError)
    | _ => Except.ok ([] : Str))
  let initials_raw := (match rightResp with
    | .dict rd => (dictGet rd "initials").getD .none
    | _ => .none)
  let initials_norm ← normalize_initials_dict initials_raw
  let fio1 := if enforce_initials then enforcePatronymic initials_norm.2 fioResp
    else fioResp
  let fio2 ← reconcileFio initials_norm.1 initials_norm.2 fio1
  return { nationality := nationality, needs_manual_review := needs,
           r_surname := r_surname, init_name := initials_norm.1,
           init_patr := initials_norm.2, right_raw := rightResp, fio := fio2 }

/-! ### Region extraction (source lines 77-85) -/

/-- Python int() truncation toward zero on a rational. -/
def pyTrunc (q : ℚ) : ℤ := if q < 0 then -⌊-q⌋ else ⌊q⌋

/-- Pixel box produced by crop_percent. -/
structure PxBox where
  X0 : ℤ
  Y0 : ℤ
  X1 : ℤ
  Y1 : ℤ

/-- crop_percent from the source: clamp the pad-expanded fractional box into
[0,1] per axis (only when pad is truthy), scale by the image size and
truncate to integers. -/
def crop_percent (w h : ℕ) (box : ℚ × ℚ × ℚ × ℚ) (pad : ℚ) : PxBox :=
  let (x0, y0, x1, y1) := box
  let (x0, y0, x1, y1) :=
    if pad ≠ 0 then
      (max 0 (x0 - pad), max 0 (y0 - pad), min 1 (x1 + pad), min 1 (y1 + pad))
    else (x0, y0, x1, y1)
  ⟨pyTrunc (x0 * w), pyTrunc (y0 * h), pyTrunc (x1 * w), pyTrunc (y1 * h)⟩

/-! ### JSON parsing model (json.loads restricted to the JSON grammar:
objects, arrays, strings with the standard escapes, numbers, literals;
fuel bounds the recursion depth generously) -/

/-- JSON insignificant whitespace. -/
def jsonWs (c : Char) : Bool := c = ' ' || c = '\t' || c = '\n' || c = '\r'

/-- Drop leading JSON whitespace. -/
def skipWs (s : Str) : Str := s.dropWhile jsonWs

/-- Hex digit value. -/
def hexVal (c : Char) : Option ℕ :=
  if '0' ≤ c && c ≤ '9' then some (c.toNat - 48)
  else if 'a' ≤ c && c ≤ 'f' then some (c.toNat - 87)
  else if 'A' ≤ c && c ≤ 'F' then some (c.toNat - 55)
  else Option.none

/-- Single-character JSON string escapes. -/
def escChar (e : Char) : Option Char :=
  if e = '"' then some '"'
  else if e = '\\' then some '\\'
  else if e = '/' then some '/'
  else if e = 'n' then some '\n'
  else if e = 't' then some '\t'
  else if e = 'r' then some '\r'
  else if e = 'b' then some '\x08'
  else if e = 'f' then some '\x0c'
  else Option.none

/-- JSON string body after the opening quote: contents and remainder after
the closing quote. -/
def jstr : Str → Option (Str × Str)
  | [] => Option.none
  | '"' :: rest => some ([], rest)
  | '\\' :: 'u' :: a :: b :: c :: d :: r =>
      (match hexVal a, hexVal b, hexVal c, hexVal d with
        | some x, some y, some z, some w =>
            (jstr r).map (fun p => (Char.ofNat (((x * 16 + y) * 16 + z) * 16 + w) :: p.1, p.2))
        | _, _, _, _ => Option.none)
  | '\\' :: e :: r =>
      (match escChar e with
        | some ch => (jstr r).map (fun p => (ch :: p.1, p.2))
        | Option.none => Option.none)
  | c :: r => (jstr r).map (fun p => (c :: p.1, p.2))

/-- JSON number: optional minus, digits, optional fraction, optional
exponent.  Returns the value and the remainder. -/
def jnum (s : Str) : Option (ℚ × Str) :=
  let signRes : Bool × Str := match s with | '-' :: t => (true, t) | t => (false, t)
  let neg := signRes.1
  let s1 := signRes.2
  let ip := s1.takeWhile isDigitCh
  if ip.isEmpty then Option.none else
  let r1 := s1.drop ip.length
  let fracRes : Option (ℚ × Str) :=
    match r1 with
    | '.' :: t =>
        let fp := t.takeWhile isDigitCh
        if fp.isEmpty then Option.none
        else some ((digitsToNat ip : ℚ) + (digitsToNat fp : ℚ) / (10 : ℚ) ^ fp.length,
          t.drop fp.length)
    | _ => some ((digitsToNat ip : ℚ), r1)
  match fracRes with
  | Option.none => Option.none
  | some (base, r2) =>
    let expRes : Option (ℚ × Str) :=
      match r2 with
      | e :: t =>
        if e = 'e' || e = 'E' then
          let esignRes : ℤ × Str :=
            match t with
            | '+' :: u => (1, u)
            | '-' :: u => (-1, u)
            | u => (1, u)
          let ed := esignRes.2.takeWhile isDigitCh
          if ed.isEmpty then Option.none
          else some (base * (10 : ℚ) ^ (esignRes.1 * (digitsToNat ed : ℤ)),
            esignRes.2.drop ed.length)
        else some (base, r2)
      | [] => some (base, r2)
    expRes.map (fun p => ((if neg then -p.1 else p.1), p.2))

mutual

/-- JSON value parser (fuel-bounded). -/
def jVal : ℕ → Str → Option (PyVal × Str)
  | 0, _ => Option.none
  | f + 1, s0 =>
    let s := skipWs s0
    if "null".data.isPrefixOf s then some (.none, s.drop 4)
    else if "true".data.isPrefixOf s then some (.bool true, s.drop 4)
    else if "false".data.isPrefixOf s then some (.bool false, s.drop 5)
    else
      match s with
      | '"' :: r => (jstr r).map (fun p => (.str p.1, p.2))
      | '[' :: r => jArrStart f r
      | '{' :: r => jObjStart f r
      | _ => (jnum s).map (fun p => (.num p.1, p.2))

/-- Array contents after the opening bracket. -/
def jArrStart : ℕ → Str → Option (PyVal × Str)
  | 0, _ => Option.none
  | f + 1, s0 =>
    let s := skipWs s0
    match s with
    | ']' :: t => some (.list [], t)
    | _ =>
      match jVal f s with
      | some (v, r) => jArrRest f [v] r
      | Option.none => Option.none

/-- Remaining array items (accumulator reversed at the end). -/
def jArrRest : ℕ → List PyVal → Str → Option (PyVal × Str)
  | 0, _, _ => Option.none
  | f + 1, acc, s0 =>
    match skipWs s0 with
    | ']' :: t => some (.list acc.reverse, t)
    | ',' :: t =>
      (match jVal f t with
        | some (v, r) => jArrRest f (v :: acc) r
        | Option.none => Option.none)
    | _ => Option.none

/-- Object contents after the opening brace. -/
def jObjStart : ℕ → Str → Option (PyVal × Str)
  | 0, _ => Option.none
  | f + 1, s0 =>
    let s := skipWs s0
    match s with
    | '}' :: t => some (.dict [], t)
    | '"' :: r =>
      (match jstr r with
        | some (k, r1) =>
          (match skipWs r1 with
            | ':' :: r2 =>
              (match jVal f r2 with
                | some (v, r3) => jObjRest f (dictSet [] (String.mk k) v) r3
                | Option.none => Option.none)
            | _ => Option.none)
        | Option.none => Option.none)
    | _ => Option.none

/-- Remaining object entries (duplicate keys keep the first position with the
last value, as in CPython). -/
def jObjRest : ℕ → List (String × PyVal) → Str → Option (PyVal × Str)
  | 0, _, _ => Option.none
  | f + 1, acc, s0 =>
    match skipWs s0 with
    | '}' :: t => some (.dict acc, t)
    | ',' :: t =>
      (match skipWs t with
        | '"' :: r =>
          (match jstr r with
            | some (k, r1) =>
              (match skipWs r1 with
                | ':' :: r2 =>
                  (match jVal f r2 with
                    | some (v, r3) => jObjRest f (dictSet acc (String.mk k) v) r3
                    | Option.none => Option.none)
                | _ => Option.none)
            | Option.none => Option.none)
        | _ => Option.none)
    | _ => Option.none

end

/-- json.loads: parse the whole text (surrounding whitespace allowed),
rejecting trailing content. -/
def pyJsonLoads (s : Str) : Option PyVal :=
  match jVal (8 * (s.length + 1)) s with
  | some (v, rest) => if (skipWs rest).isEmpty then some v else Option.none
  | Option.none => Option.none

/-- Leftmost-longest match of the DOTALL regex greedy brace pattern used by
parse_json_or_extract: the span from the first opening brace through the last
closing brace after it. -/
def bracedSpan (s : Str) : Option Str :=
  match s.dropWhile (fun c => !(c = '{')) with
  | [] => Option.none
  | rest =>
    match rest.reverse.dropWhile (fun c => !(c = '}')) with
    | [] => Option.none
    | core => some core.reverse

/-- The bad-JSON fallback object. -/
def errObj (s : Str) : PyVal :=
  .dict [("error", .str "bad_json".data), ("raw_content", .str s)]

/-- parse_json_or_extract from the source (lines 234-245). -/
def parse_json_or_extract (s : Str) : PyVal :=
  match pyJsonLoads s with
  | some v => v
  | Option.none =>
    match bracedSpan s with
    | some t =>
      (match pyJsonLoads t with
        | some v => v
        | Option.none => errObj s)
    | Option.none => errObj s

/-- Modelled from the spec: the first balanced brace span of the text (what
the specification says the recovery path extracts).  Depth-counting scan
starting at the first opening brace. -/
def balancedFrom : ℕ → Str → Str → Option Str
  | _, _, [] => Option.none
  | d, acc, c :: t =>
    if c = '{' then balancedFrom (d + 1) (c :: acc) t
    else if c = '}' then
      (if d = 1 then some (c :: acc).reverse
       else if d = 0 then Option.none
       else balancedFrom (d - 1) (c :: acc) t)
    else balancedFrom d (c :: acc) t

/-- Modelled from the spec: extract the first balanced curly-brace span. -/
def firstBalancedSpan (s : Str) : Option Str :=
  match s.dropWhile (fun c => !(c = '{')) with
  | [] => Option.none
  | rest => balancedFrom 0 [] rest

/-! ### Pairer (source lines 702-721) -/

/-- Python string comparison (lexicographic by code point), as a Boolean
less-or-equal. -/
def strLeB : Str → Str → Bool
  | [], _ => true
  | _ :: _, [] => false
  | a :: s, b :: t =>
    if a.toNat < b.toNat then true
    else if b.toNat < a.toNat then false
    else strLeB s t

/-- The ordering relation behind Python sorted() on strings. -/
def pyLe (a b : Str) : Prop := strLeB a b = true

instance : DecidableRel pyLe := fun a b => decEq (strLeB a b) true

/-- Python sorted() on a list of strings, modelled by insertion sort (stable,
like CPython's sort). -/
def sortPy (l : List Str) : List Str := List.insertionSort pyLe l

/-- Truthiness of `candidates[0] if candidates else None` in the source:
some non-empty string. -/
def truthyStrOpt : Option Str → Bool
  | some s => !s.isEmpty
  | Option.none => false

/-- The greedy matching loop of pair_by_nearest: for each front page in
order, the first unused list page sorted-after it, else the first unused
list page; a falsy chosen value (empty filename) drops the front page. -/
def pbnGo (p2s : List Str) : List Str → List Str → List (Str × Str)
  | [], _ => []
  | p1 :: rest, used =>
    let candidates := p2s.filter (fun p2 => !used.contains p2 && strLeB p1 p2)
    let chosen0 := candidates.head?
    let chosen := if truthyStrOpt chosen0 then chosen0
      else (p2s.filter (fun p2 => !used.contains p2)).head?
    match chosen with
    | some c =>
        if !c.isEmpty then (p1, c) :: pbnGo p2s rest (c :: used)
        else pbnGo p2s rest used
    | Option.none => pbnGo p2s rest used

/-- pair_by_nearest from the source.  The classified-dict accesses
`classified.get("page1") or []`/`classified.get("page2") or []` are modelled
by passing the two filename lists directly. -/
def pair_by_nearest (page1s page2s : List Str) : List (Str × Str) :=
  pbnGo (sortPy page2s) (sortPy page1s) []

/-- Minimum of a list of strings under the Python ordering (None when
empty). -/
def listMinStr : List Str → Option Str
  | [] => Option.none
  | x :: t =>
    match listMinStr t with
    | Option.none => some x
    | some m => some (if strLeB x m then x else m)

/-- Modelled from the spec: the selection rule of nearest-following pairing —
the lexicographically smallest unused list page not before the front page,
falling back to the smallest unused list page. -/
def specChoose (avail : List Str) (p1 : Str) : Option Str :=
  match listMinStr (avail.filter (fun b => strLeB p1 b)) with
  | some c => some c
  | Option.none => listMinStr avail

/-- Modelled from the spec: the nearest-following greedy loop expressed with
the minimum-based selection rule. -/
def specGo (p2s : List Str) : List Str → List Str → List (Str × Str)
  | [], _ => []
  | p1 :: rest, used =>
    match specChoose (p2s.filter (fun b => !used.contains b)) p1 with
    | some c => (p1, c) :: specGo p2s rest (c :: used)
    | Option.none => specGo p2s rest used

/-- Modelled from the spec: nearest-following pairing. -/
def specNearestFollowing (page1s page2s : List Str) : List (Str × Str) :=
  specGo (sortPy page2s) (sortPy page1s) []

/-! ### Resumable downloader (source lines 135-223) -/

/-- Network/filesystem oracle for one download run: whether a non-empty
completed file already exists for an index, and whether the n-th attempt
(1-based) for an index succeeds end-to-end (covering the 416 and 200-on-range
sub-paths, which both end in success or an exception). -/
structure DlWorld where
  preExisting : ℤ → Bool
  attemptOk : ℤ → ℕ → Bool

/-- Statistics returned by download_image_range; the error list keeps the
indices (the url/message parts of each error entry are I/O strings). -/
structure DlStats where
  downloaded : ℕ
  skipped : ℕ
  errors : List ℤ

/-- The retry loop body: `rem` counts the iterations left
(`retries + 1 - attempt` for the source's condition `attempt <= retries`). -/
def attemptLoopGo (ok : ℕ → Bool) : ℕ → ℕ → Bool
  | _, 0 => false
  | attempt, rem + 1 => if ok (attempt + 1) then true else attemptLoopGo ok (attempt + 1) rem

/-- The retry loop: `attempt = 0; while attempt <= retries: attempt += 1; try
...` — true when some attempt numbered 1 .. retries+1 succeeds. -/
def attemptLoop (ok : ℕ → Bool) (retries : ℕ) : Bool := attemptLoopGo ok 0 (retries + 1)

/-- The indices `range(int(start), int(end)+1)`. -/
def dlIndices (start endIdx : ℤ) : List ℤ :=
  (List.range (endIdx + 1 - start).toNat).map (fun (k : ℕ) => start + (k : ℤ))

/-- One loop iteration of download_image_range for one index. -/
def dlStep (world : DlWorld) (retries : ℕ) (st : DlStats) (idx : ℤ) : DlStats :=
  if world.preExisting idx then { st with skipped := st.skipped + 1 }
  else if attemptLoop (world.attemptOk idx) retries then
    { st with downloaded := st.downloaded + 1 }
  else { st with errors := st.errors ++ [idx] }

/-- download_image_range from the source (network and sleeps abstracted into
the oracle; retries modelled as a natural number as in the CLI default). -/
def download_image_range (start endIdx : ℤ) (retries : ℕ) (world : DlWorld) : DlStats :=
  (dlIndices start endIdx).foldl (dlStep world retries) ⟨0, 0, []⟩

/-! ### Generic lemmas about the dict and string models -/

/-- Reading back the key just written. -/
theorem dictGet_dictSet_self (l : List (String × PyVal)) (k : String) (v : PyVal) :
    dictGet (dictSet l k v) k = some v := by
  induction l with
  | nil => simp [dictSet, dictGet]
  | cons hd t ih =>
      obtain ⟨k', v'⟩ := hd
      by_cases h : k' = k <;> simp [dictSet, dictGet, h, ih]

/-- Writing one key leaves other keys unchanged. -/
theorem dictGet_dictSet_ne (l : List (String × PyVal)) (k k' : String) (v : PyVal)
    (h : k' ≠ k) : dictGet (dictSet l k' v) k = dictGet l k := by
  induction l with
  | nil => simp [dictSet, dictGet, h]
  | cons hd t ih =>
      obtain ⟨k'', v''⟩ := hd
      by_cases h2 : k'' = k'
      · subst h2
        simp [dictSet, dictGet, h]
      · simp only [dictSet, if_neg h2]
        by_cases h3 : k'' = k
        · simp [dictGet, h3]
        · simp [dictGet, h3, ih]

/-- The Boolean substring test agrees with the infix relation. -/
theorem strIn_iff (n h : Str) : strIn n h = true ↔ n <:+: h := by
  induction h with
  | nil =>
      simp [strIn, List.isEmpty_iff]
  | cons c t ih =>
      simp only [strIn, Bool.or_eq_true, ih]
      rw [ List.infix_cons_iff]
      constructor
      · rintro (hp | hi)
        · exact Or.inl ( List.isPrefixOf_iff_prefix.mp hp)
        · exact Or.inr hi
      · rintro (hp | hi)
        · exact Or.inl ( List.isPrefixOf_iff_prefix.mpr hp)
        · exact Or.inr hi

/-- A non-empty pattern avoiding the dropped character class survives a
dropWhile on the haystack. -/
theorem infix_dropWhile_of_no (p : Char → Bool) (n : Str) (hn : n ≠ [])
    (hnp : ∀ c ∈ n, p c = false) :
    ∀ s : Str, n <:+: s → n <:+: s.dropWhile p := by
  intro s
  induction s with
  | nil => intro h; simpa using h
  | cons c t ih =>
      intro h
      by_cases hc : p c
      · simp only [List.dropWhile, hc]
        apply ih
        rcases ( List.infix_cons_iff).mp h with hp | hi
        · obtain ⟨c0, n', rfl⟩ : ∃ c0 n', n = c0 :: n' := by
            cases n with
            | nil => exact absurd rfl hn
            | cons a b => exact ⟨a, b, rfl⟩
          obtain ⟨h1, -⟩ := ( List.cons_prefix_cons).mp hp
          subst h1
          have := hnp c0 (List.mem_cons_self _ _)
          rw [this] at hc
          exact absurd hc (by simp)
        · exact hi
      · simp only [List.dropWhile, hc]
        simpa using h

/-- Stripping surrounding whitespace preserves containment of a non-empty
whitespace-free pattern. -/
theorem strIn_stripPy (n s : Str) (hn : n ≠ []) (hnp : ∀ c ∈ n, isSpacePy c = false)
    (h : strIn n s = true) : strIn n (stripPy s) = true := by
  rw [strIn_iff] at h ⊢
  unfold stripPy
  have h1 : n <:+: s.dropWhile isSpacePy := infix_dropWhile_of_no _ n hn hnp s h
  have h2 : n.reverse <:+: (s.dropWhile isSpacePy).reverse :=
    ( List.reverse_infix).mpr h1
  have h3 : n.reverse <:+: (s.dropWhile isSpacePy).reverse.dropWhile isSpacePy :=
    infix_dropWhile_of_no _ n.reverse (by simpa using hn)
      (by intro c hc; exact hnp c (List.mem_reverse.mp hc)) _ h2
  have h4 := ( List.reverse_infix).mpr h3
  simpa using h4

/-! ### Claim C5: initial normalization stays in the 33-letter alphabet -/

/-- The UA2RU substitution never produces a variant letter. -/
theorem ua2ru_not_variant (x : Char) : ua2ruChar x ∉ UA_VARIANTS := by
  unfold ua2ruChar UA_VARIANTS
  split_ifs with h1 h2 h3 h4
  · decide
  · decide
  · decide
  · decide
  · intro hmem
    have : x = 'І' ∨ x = 'Ї' ∨ x = 'Є' ∨ x = 'Ґ' := by
      simpa using hmem
    rcases this with h | h | h | h
    · exact h1 h
    · exact h2 h
    · exact h3 h
    · exact h4 h

/-- Claim C5: for every input string, normalize_initial_str returns either
the empty string or exactly one letter of the fixed 33-letter Russian
alphabet; the four Ukrainian variant letters are substituted before selection
and can never appear in the output. -/
theorem c5_normalize_initial_alphabet (s : Str) :
    normalize_initial_str s = [] ∨
    ∃ c, normalize_initial_str s = [c] ∧ c ∈ RU_LETTERS ∧ c ∉ UA_VARIANTS := by
  unfold normalize_initial_str
  by_cases hs : s.isEmpty
  · simp [hs]
  · simp only [hs, Bool.false_eq_true, if_false]
    cases hfe : ((upperPy s).map ua2ruChar).filter (fun ch => CYR_LETTERS.contains ch) with
    | nil => exact Or.inl rfl
    | cons c t =>
        right
        have hc : c ∈ ((upperPy s).map ua2ruChar).filter
            (fun ch => CYR_LETTERS.contains ch) := by
          rw [hfe]; exact List.mem_cons_self c t
        have hcyr : CYR_LETTERS.contains c = true := List.of_mem_filter hc
        have hmem : c ∈ CYR_LETTERS := List.elem_iff.mp hcyr
        have hvar : c ∉ UA_VARIANTS := by
          have hmap : c ∈ (upperPy s).map ua2ruChar := List.mem_of_mem_filter hc
          obtain ⟨x, -, rfl⟩ := List.mem_map.mp hmap
          exact ua2ru_not_variant x
        have hsplit : CYR_LETTERS = RU_LETTERS ++ UA_VARIANTS := by decide
        rw [hsplit] at hmem
        rcases List.mem_append.mp hmem with h | h
        · exact ⟨c, rfl, h, hvar⟩
        · exact absurd h hvar

/-! ### Claim C1: target markers force is_jewish true with confidence 1 -/

/-- Field access on a successfully returned dict. -/
def fixField (e : Except PyErr PyVal) (k : String) : Option PyVal :=
  match e with
  | .ok (.dict l) => dictGet l k
  | _ => Option.none

/-- Claim C1: a nationality record whose lower-cased `match` contains a
target marker is forced to `is_jewish=true, confidence=1.0` by
fix_nationality_sanity, regardless of any non-target markers also present
(the target list is scanned first). -/
theorem c1_jewish_marker_forces_true (nat : List (String × PyVal)) (ms : Str)
    (hm : dictGet nat "match" = some (.str ms))
    (hj : ∃ j ∈ JEWISH_MARKERS, strIn j (lowerPy ms) = true) :
    ∃ nat', fix_nationality_sanity (.dict nat) = .ok (.dict nat') ∧
      dictGet nat' "is_jewish" = some (.bool true) ∧
      dictGet nat' "confidence" = some (.num 1) := by
  obtain ⟨j, hjm, hji⟩ := hj
  have hfacts : ∀ j' ∈ JEWISH_MARKERS, j' ≠ [] ∧ ∀ c ∈ j', isSpacePy c = false := by
    decide
  obtain ⟨hjne, hjsp⟩ := hfacts j hjm
  have hms : ms ≠ [] := by
    rintro rfl
    have : strIn j ([] : Str) = true := hji
    rw [strIn_iff] at this
    exact hjne ( List.infix_nil.mp this)
  have hstrip : strIn j (stripPy (lowerPy ms)) = true :=
    strIn_stripPy j (lowerPy ms) hjne hjsp hji
  have hsne : ¬ (stripPy (lowerPy ms)).isEmpty = true := by
    intro he
    rw [List.isEmpty_iff] at he
    rw [he] at hstrip
    rw [strIn_iff] at hstrip
    exact hjne ( List.infix_nil.mp hstrip)
  have hfind : (JEWISH_MARKERS.find? (fun j' => strIn j' (stripPy (lowerPy ms)))).isSome := by
    rw [List.find?_isSome]
    exact ⟨j, hjm, hstrip⟩
  obtain ⟨j0, hj0⟩ := Option.isSome_iff_exists.mp hfind
  have hOr : pyOr ((dictGet nat "match").getD .none) (.str []) = .str ms := by
    rw [hm]
    simp [pyOr, pyTruthy, hms]
  refine ⟨dictSet (dictSet (dictSet nat "is_jewish" (.bool true)) "confidence" (.num 1))
      "reason" (.dict [("forced_true_by_marker", .str j0)]), ?_, ?_, ?_⟩
  · unfold fix_nationality_sanity
    dsimp only
    rw [hOr]
    dsimp only
    rw [if_neg hsne, hj0]
  · rw [dictGet_dictSet_ne _ _ _ _ (by decide : ("reason" : String) ≠ "is_jewish"),
      dictGet_dictSet_ne _ _ _ _ (by decide : ("confidence" : String) ≠ "is_jewish"),
      dictGet_dictSet_self]
  · rw [dictGet_dictSet_ne _ _ _ _ (by decide : ("reason" : String) ≠ "confidence"),
      dictGet_dictSet_self]

/-- Concrete nationality record whose match contains both a non-target
substring and a target marker. -/
def natC1 : List (String × PyVal) := [("match", PyVal.str "украинец еврей".data)]

/-- Witness for C1: a match string containing both a non-target substring and
a target marker is still forced to true. -/
theorem c1_jewish_marker_forces_true_witness :
    fixField (fix_nationality_sanity (.dict natC1)) "is_jewish" = some (.bool true) ∧
    fixField (fix_nationality_sanity (.dict natC1)) "confidence" = some (.num 1) := by
  obtain ⟨nat', h1, h2, h3⟩ := c1_jewish_marker_forces_true natC1 ("украинец еврей".data)
    rfl ⟨"евр".data, by decide, by decide⟩
  rw [h1]
  exact ⟨by simp [fixField, h2], by simp [fixField, h3]⟩

/-! ### Claim C9: no-raise behaviour of the filter and reconciliation -/

/-- Shape condition on the `match` field under which the sanity filter cannot
raise: absent, falsy, or a string. -/
def matchFieldOk (l : List (String × PyVal)) : Prop :=
  match dictGet l "match" with
  | Option.none => True
  | some v => pyTruthy v = false ∨ ∃ s, v = PyVal.str s

/-- Shape condition on the `raw` field under which reconciliation cannot
raise: absent, falsy, or a dict. -/
def rawFieldOk (l : List (String × PyVal)) : Prop :=
  match dictGet l "raw" with
  | Option.none => True
  | some v => pyTruthy v = false ∨ ∃ d, v = PyVal.dict d

/-- Shape condition on the `checks` field under which reconciliation cannot
raise: absent or a dict. -/
def checksFieldOk (l : List (String × PyVal)) : Prop :=
  match dictGet l "checks" with
  | Option.none => True
  | some v => ∃ d, v = PyVal.dict d

/-- Once the `match` value has resolved to a string, every path of the sanity
filter returns ok. -/
theorem fix_str_ok (nat : List (String × PyVal)) (s0 : Str)
    (hOr : pyOr ((dictGet nat "match").getD .none) (.str []) = .str s0) :
    ∃ r, fix_nationality_sanity (.dict nat) = .ok r := by
  unfold fix_nationality_sanity
  dsimp only
  rw [hOr]
  dsimp only
  by_cases hE : (stripPy (lowerPy s0)).isEmpty = true
  · rw [if_pos hE]
    exact ⟨_, rfl⟩
  · rw [if_neg hE]
    cases hf : JEWISH_MARKERS.find? (fun j => strIn j (stripPy (lowerPy s0))) with
    | some j => exact ⟨_, rfl⟩
    | none =>
        cases hf2 : NON_JEWISH_MARKERS.find? (fun m => strIn m (stripPy (lowerPy s0))) with
        | some m => exact ⟨_, rfl⟩
        | none => exact ⟨_, rfl⟩

/-- Once the `raw` value has resolved to a dict and `checks` is absent or a
dict, every path of reconciliation returns ok. -/
theorem reconcile_dict_ok (n p : Str) (fd rd : List (String × PyVal))
    (hOr : pyOr ((dictGet fd "raw").getD .none) (.dict []) = .dict rd)
    (hch : checksFieldOk fd) :
    ∃ r, reconcileFio n p (.dict fd) = .ok r := by
  unfold reconcileFio
  dsimp only
  rw [hOr]
  dsimp only [Bind.bind, Except.bind]
  cases hsp : split_fio_left (pyOr ((dictGet rd "fio_left").getD .none) (.str [])) with
  | none => exact ⟨_, rfl⟩
  | some trip =>
      obtain ⟨ls, ln, lp⟩ := trip
      dsimp only
      unfold checksFieldOk at hch
      cases hc : dictGet fd "checks" with
      | none =>
          dsimp only
          split
          · exact ⟨_, rfl⟩
          · exact ⟨_, rfl⟩
      | some v =>
          rw [hc] at hch
          obtain ⟨d, rfl⟩ := hch
          dsimp only
          split
          · exact ⟨_, rfl⟩
          · exact ⟨_, rfl⟩

/-- Amended claim C9: the sanity filter and the reconciliation step pass
non-dict records through unchanged and never raise provided the `match` field
is a string or falsy, the `raw` field is a dict or falsy, and the `checks`
field is a dict or absent.  (The unamended claim is refuted by
c9_counterexample: a truthy non-string `match` raises.) -/
theorem c9_no_raise_amended :
    (∀ v, isDict v = false → fix_nationality_sanity v = .ok v) ∧
    (∀ n p v, isDict v = false → reconcileFio n p v = .ok v) ∧
    (∀ l, matchFieldOk l → ∃ r, fix_nationality_sanity (.dict l) = .ok r) ∧
    (∀ n p l, rawFieldOk l → checksFieldOk l →
      ∃ r, reconcileFio n p (.dict l) = .ok r) := by
  refine ⟨?_, ?_, ?_, ?_⟩
  · intro v hv
    cases v with
    | dict l => simp [isDict] at hv
    | none => rfl
    | bool b => rfl
    | num q => rfl
    | str s => rfl
    | list l => rfl
  · intro n p v hv
    cases v with
    | dict l => simp [isDict] at hv
    | none => rfl
    | bool b => rfl
    | num q => rfl
    | str s => rfl
    | list l => rfl
  · intro l hml
    unfold matchFieldOk at hml
    cases hg : dictGet l "match" with
    | none =>
        refine fix_str_ok l [] ?_
        rw [hg]
        rfl
    | some v =>
        rw [hg] at hml
        rcases hml with hfalsy | ⟨s, rfl⟩
        · refine fix_str_ok l [] ?_
          rw [hg]
          simp [pyOr, hfalsy]
        · by_cases ht : pyTruthy (.str s) = true
          · refine fix_str_ok l s ?_
            rw [hg]
            simp [pyOr, ht]
          · refine fix_str_ok l [] ?_
            rw [hg]
            simp [pyOr, ht]
  · intro n p l hraw hch
    unfold rawFieldOk at hraw
    cases hg : dictGet l "raw" with
    | none =>
        refine reconcile_dict_ok n p l [] ?_ hch
        rw [hg]
        rfl
    | some v =>
        rw [hg] at hraw
        rcases hraw with hfalsy | ⟨d, rfl⟩
        · refine reconcile_dict_ok n p l [] ?_ hch
          rw [hg]
          simp [pyOr, hfalsy]
        · by_cases ht : pyTruthy (.dict d) = true
          · refine reconcile_dict_ok n p l d ?_ hch
            rw [hg]
            simp [pyOr, ht]
          · refine reconcile_dict_ok n p l [] ?_ hch
            rw [hg]
            simp [pyOr, ht]

/-- Counterexample to claim C9 as stated: a record whose `match` field is the
number 1 (a truthy non-string) makes fix_nationality_sanity raise
AttributeError at the `.lower()` call. -/
theorem c9_counterexample :
    fix_nationality_sanity (.dict [("match", .num 1)]) = .error .attributeError := by
  rfl

/-- Witness for the amended C9: non-dict inputs pass through both steps
unchanged. -/
theorem c9_no_raise_amended_witness :
    fix_nationality_sanity (.bool true) = .ok (.bool true) ∧
    reconcileFio [] [] (.str "x".data) = .ok (.str "x".data) :=
  ⟨c9_no_raise_amended.1 _ rfl, c9_no_raise_amended.2.1 [] [] _ rfl⟩

/-! ### Claim C2: the manual-review flag -/

/-- Bind inversion for the Except monad. -/
theorem except_bind_ok {α β : Type} (e : Except PyErr α) (f : α → Except PyErr β) (b : β) :
    (e >>= f) = .ok b ↔ ∃ a, e = .ok a ∧ f a = .ok b := by
  cases e with
  | error err => simp [Bind.bind, Except.bind]
  | ok a => simp [Bind.bind, Except.bind]

/-- The coercion `float(confidence or 0.0)` on a numeric confidence is the
identity. -/
theorem pyFloat_pyOr_num (q : ℚ) : pyFloat (pyOr (.num q) (.num 0)) = .ok q := by
  by_cases hq : q = 0
  · subst hq
    simp [pyOr, pyTruthy, pyFloat]
  · simp [pyOr, pyTruthy, hq, pyFloat]

/-- Python `v is False` on an optional field value. -/
def isFalseOpt : Option PyVal → Bool
  | some (.bool false) => true
  | _ => false

/-- isFalseOpt recognises exactly the value False. -/
theorem isFalseOpt_iff (o : Option PyVal) :
    isFalseOpt o = true ↔ o = some (PyVal.bool false) := by
  cases o with
  | none => simp [isFalseOpt]
  | some v =>
      cases v with
      | bool b => cases b <;> simp [isFalseOpt]
      | none => simp [isFalseOpt]
      | num q => simp [isFalseOpt]
      | str s => simp [isFalseOpt]
      | dict d => simp [isFalseOpt]
      | list xs => simp [isFalseOpt]

/-- The manual-review flag of a pipeline run is the flag computed from the
sanity-filtered nationality alone. -/
theorem runPipelineCore_flag (nat rt fo : PyVal) (e : Bool) (out : PipeOut)
    (h : runPipelineCore nat rt fo e = .ok out) :
    ∃ nv fl, fix_nationality_sanity nat = .ok nv ∧ manualReviewFlag nv = .ok fl ∧
      out.needs_manual_review = fl := by
  unfold runPipelineCore at h
  rw [except_bind_ok] at h
  obtain ⟨nv, hnv, h⟩ := h
  rw [except_bind_ok] at h
  obtain ⟨fl, hfl, h⟩ := h
  rw [except_bind_ok] at h
  obtain ⟨rs, -, h⟩ := h
  rw [except_bind_ok] at h
  obtain ⟨ini, -, h⟩ := h
  rw [except_bind_ok] at h
  obtain ⟨f2, -, h⟩ := h
  refine ⟨nv, fl, hnv, hfl, ?_⟩
  have h2 : (Except.ok
      ({ nationality := nv, needs_manual_review := fl, r_surname := rs,
         init_name := ini.1, init_patr := ini.2, right_raw := rt,
         fio := f2 } : PipeOut) : Except PyErr PipeOut) = .ok out := h
  have h3 := Except.ok.inj h2
  rw [← h3]

/-- The flag computed by manualReviewFlag on a dict with numeric confidence. -/
theorem manualReviewFlag_eq (l' : List (String × PyVal)) (q : ℚ) (fl : Bool)
    (h3 : dictGet l' "confidence" = some (.num q))
    (hfl : manualReviewFlag (.dict l') = .ok fl) :
    fl = (isFalseOpt (dictGet l' "is_jewish") && decide (q < 1)) := by
  unfold manualReviewFlag at hfl
  dsimp only at hfl
  cases ho : dictGet l' "is_jewish" with
  | none =>
      rw [ho] at hfl
      dsimp only at hfl
      simp only [isFalseOpt, Bool.false_and]
      exact (Except.ok.inj hfl).symm
  | some v =>
      cases v with
      | bool b =>
          cases b with
          | false =>
              rw [ho] at hfl
              dsimp only at hfl
              rw [h3] at hfl
              simp only [Option.getD_some] at hfl
              rw [except_bind_ok] at hfl
              obtain ⟨qq, hqq, hret⟩ := hfl
              rw [pyFloat_pyOr_num] at hqq
              have hq : q = qq := Except.ok.inj hqq
              subst hq
              have hret2 : (Except.ok (decide (q < 1)) : Except PyErr Bool) = .ok fl := hret
              simp only [isFalseOpt, Bool.true_and]
              exact (Except.ok.inj hret2).symm
          | true =>
              rw [ho] at hfl
              dsimp only at hfl
              simp only [isFalseOpt, Bool.false_and]
              exact (Except.ok.inj hfl).symm
      | none =>
          rw [ho] at hfl
          dsimp only at hfl
          simp only [isFalseOpt, Bool.false_and]
          exact (Except.ok.inj hfl).symm
      | num q2 =>
          rw [ho] at hfl
          dsimp only at hfl
          simp only [isFalseOpt, Bool.false_and]
          exact (Except.ok.inj hfl).symm
      | str s =>
          rw [ho] at hfl
          dsimp only at hfl
          simp only [isFalseOpt, Bool.false_and]
          exact (Except.ok.inj hfl).symm
      | dict d =>
          rw [ho] at hfl
          dsimp only at hfl
          simp only [isFalseOpt, Bool.false_and]
          exact (Except.ok.inj hfl).symm
      | list xs =>
          rw [ho] at hfl
          dsimp only at hfl
          simp only [isFalseOpt, Bool.false_and]
          exact (Except.ok.inj hfl).symm

/-- Claim C2: needs_manual_review is true iff the sanity-filtered nationality
record has is_jewish equal to False and a confidence below 1; it is false in
every other combination including a missing is_jewish field; and the flag
depends only on the nationality response, not on the band response, the FIO
response, the enforce-initials mode, or reconciliation. -/
theorem c2_manual_review_iff (natd : List (String × PyVal)) (rt fo : PyVal) (e : Bool)
    (out : PipeOut) (l' : List (String × PyVal)) (q : ℚ)
    (h1 : fix_nationality_sanity (.dict natd) = .ok (.dict l'))
    (h2 : runPipelineCore (.dict natd) rt fo e = .ok out)
    (h3 : dictGet l' "confidence" = some (.num q)) :
    (out.needs_manual_review = true ↔
      (dictGet l' "is_jewish" = some (.bool false) ∧ q < 1)) ∧
    (dictGet l' "is_jewish" = Option.none → out.needs_manual_review = false) ∧
    (∀ rt' fo' e' out', runPipelineCore (.dict natd) rt' fo' e' = .ok out' →
      out'.needs_manual_review = out.needs_manual_review) := by
  obtain ⟨nv, fl, hnv, hfl, hout⟩ := runPipelineCore_flag _ rt fo e out h2
  rw [h1] at hnv
  have hnveq : PyVal.dict l' = nv := Except.ok.inj hnv
  subst hnveq
  have hfl2 := manualReviewFlag_eq l' q fl h3 hfl
  refine ⟨?_, ?_, ?_⟩
  · rw [hout, hfl2]
    simp [Bool.and_eq_true, isFalseOpt_iff, decide_eq_true_iff]
  · intro hnone
    rw [hout, hfl2, hnone]
    simp [isFalseOpt]
  · intro rt' fo' e' out' h'
    obtain ⟨nv', fl', hnv', hfl', hout'⟩ := runPipelineCore_flag _ rt' fo' e' out' h'
    rw [h1] at hnv'
    have hnveq' : PyVal.dict l' = nv' := Except.ok.inj hnv'
    subst hnveq'
    rw [hfl] at hfl'
    have heq : fl = fl' := Except.ok.inj hfl'
    rw [hout, hout', heq]

/-- Concrete already-filtered nationality record: not Jewish, confidence 0. -/
def natC2 : List (String × PyVal) :=
  [("is_jewish", PyVal.bool false), ("confidence", PyVal.num 0), ("match", PyVal.str [])]

/-- Flag of a pipeline result, when the run succeeded. -/
def pipeFlag (e : Except PyErr PipeOut) : Option Bool :=
  match e with
  | .ok out => some out.needs_manual_review
  | _ => Option.none

/-- Witness for C2: is_jewish false with confidence 0 (below 1) raises the
manual-review flag. -/
theorem c2_manual_review_iff_witness :
    pipeFlag (runPipelineCore (.dict natC2) (.dict []) (.dict []) false) = some true := by
  obtain ⟨out, hout⟩ :
      ∃ out, runPipelineCore (.dict natC2) (.dict []) (.dict []) false = .ok out :=
    ⟨_, rfl⟩
  have h := c2_manual_review_iff natC2 (.dict []) (.dict []) false out natC2 0 rfl hout rfl
  have hf : out.needs_manual_review = true := h.1.mpr ⟨rfl, by norm_num⟩
  simp [pipeFlag, hout, hf]

/-! ### Claim C3: reconciliation conflict detection and resolution -/

/-- The conflict condition of the reconciliation step: some slot where both
the provided initial and the derived initial are non-empty and differ. -/
def initialsConflict (inN inP dn dp : Str) : Prop :=
  (inN ≠ [] ∧ dn ≠ [] ∧ inN ≠ dn) ∨ (inP ≠ [] ∧ dp ≠ [] ∧ inP ≠ dp)

/-- The resolution tag recorded in checks.resolution of a FIO record. -/
def resolutionOf (v : PyVal) : Option PyVal :=
  match v with
  | .dict fd =>
    (match dictGet fd "checks" with
      | some (.dict c) => dictGet c "resolution"
      | _ => Option.none)
  | _ => Option.none

/-- A present dict field absorbs the `or`-default. -/
theorem pyOr_dict (rd : List (String × PyVal)) :
    pyOr (.dict rd) (.dict []) = .dict rd := by
  cases rd with
  | nil => simp [pyOr, pyTruthy]
  | cons a t => simp [pyOr, pyTruthy]

/-- A present string field absorbs the `or`-default. -/
theorem pyOr_str (s : Str) : pyOr (.str s) (.str []) = .str s := by
  cases s with
  | nil => simp [pyOr, pyTruthy]
  | cons a t => simp [pyOr, pyTruthy]

/-- Claim C3: when raw.fio_left tokenizes into at least three runs
(surname, name, patronymic), the reconciliation step tags the record with the
prefer-front tag exactly when some slot has two non-empty differing initials,
overwrites surname and name with the front-page tokens on conflict (the
patronymic only when the front-page patronymic token is non-empty), and tags
ok-or-no-conflict otherwise. -/
theorem c3_reconcile_conflict (fd rd : List (String × PyVal))
    (fl ls ln lp inN inP : Str)
    (hraw : dictGet fd "raw" = some (.dict rd))
    (hleft : dictGet rd "fio_left" = some (.str fl))
    (hsplit : split_fio_left (.str fl) = some (ls, ln, lp))
    (hch : checksFieldOk fd) :
    ∃ fd', reconcileFio inN inP (.dict fd) = .ok (.dict fd') ∧
      (resolutionOf (.dict fd') = some (.str preferTag) ↔
        initialsConflict inN inP (normalize_initial_str ln) (normalize_initial_str lp)) ∧
      (¬ initialsConflict inN inP (normalize_initial_str ln) (normalize_initial_str lp) →
        resolutionOf (.dict fd') = some (.str okTag)) ∧
      (initialsConflict inN inP (normalize_initial_str ln) (normalize_initial_str lp) →
        dictGet fd' "surname" = some (.str ls) ∧
        dictGet fd' "name" = some (.str ln) ∧
        (lp ≠ [] → dictGet fd' "patronymic" = some (.str lp))) := by
  have htag : preferTag ≠ okTag := by decide
  have hOr : pyOr ((dictGet fd "raw").getD .none) (.dict []) = .dict rd := by
    rw [hraw]
    exact pyOr_dict rd
  have hOr2 : pyOr ((dictGet rd "fio_left").getD .none) (.str []) = .str fl := by
    rw [hleft]
    exact pyOr_str fl
  unfold reconcileFio
  dsimp only
  rw [hOr]
  dsimp only [Bind.bind, Except.bind]
  rw [hOr2, hsplit]
  dsimp only [initials_of_two]
  have hgoal : ∀ checks0 : List (String × PyVal),
      (match dictGet fd "checks" with
        | Option.none => Except.ok ([] : List (String × PyVal))
        | some (.dict c) => Except.ok c
        | some _ => Except.error PyErr.typeError) = Except.ok checks0 → True := fun _ _ => trivial
  clear hgoal
  unfold checksFieldOk at hch
  cases hc : dictGet fd "checks" with
  | none =>
      dsimp only
      split
      · next hco =>
          refine ⟨_, rfl, ?_, ?_, ?_⟩
          · constructor
            · intro _
              exact hco
            · intro _
              unfold resolutionOf
              dsimp only
              rw [dictGet_dictSet_self]
              dsimp only
              rw [dictGet_dictSet_self]
          · intro hnc
            exact absurd hco hnc
          · intro _
            refine ⟨?_, ?_, ?_⟩
            · rw [dictGet_dictSet_ne _ _ _ _ (by decide : ("checks" : String) ≠ "surname"),
                dictGet_dictSet_ne _ _ _ _ (by decide : ("patronymic" : String) ≠ "surname"),
                dictGet_dictSet_ne _ _ _ _ (by decide : ("name" : String) ≠ "surname"),
                dictGet_dictSet_self]
            · rw [dictGet_dictSet_ne _ _ _ _ (by decide : ("checks" : String) ≠ "name"),
                dictGet_dictSet_ne _ _ _ _ (by decide : ("patronymic" : String) ≠ "name"),
                dictGet_dictSet_self]
            · intro hlp
              rw [dictGet_dictSet_ne _ _ _ _ (by decide : ("checks" : String) ≠ "patronymic"),
                dictGet_dictSet_self, if_pos hlp]
      · next hco =>
          refine ⟨_, rfl, ?_, ?_, ?_⟩
          · constructor
            · intro hres
              unfold resolutionOf at hres
              dsimp only at hres
              rw [dictGet_dictSet_self] at hres
              dsimp only at hres
              rw [dictGet_dictSet_self] at hres
              have h1 : PyVal.str okTag = PyVal.str preferTag := Option.some.inj hres
              exact absurd (PyVal.str.inj h1).symm htag
            · intro hcon
              exact absurd hcon hco
          · intro _
            unfold resolutionOf
            dsimp only
            rw [dictGet_dictSet_self]
            dsimp only
            rw [dictGet_dictSet_self]
          · intro hcon
            exact absurd hcon hco
  | some v =>
      rw [hc] at hch
      obtain ⟨d, rfl⟩ := hch
      dsimp only
      split
      · next hco =>
          refine ⟨_, rfl, ?_, ?_, ?_⟩
          · constructor
            · intro _
              exact hco
            · intro _
              unfold resolutionOf
              dsimp only
              rw [dictGet_dictSet_self]
              dsimp only
              rw [dictGet_dictSet_self]
          · intro hnc
            exact absurd hco hnc
          · intro _
            refine ⟨?_, ?_, ?_⟩
            · rw [dictGet_dictSet_ne _ _ _ _ (by decide : ("checks" : String) ≠ "surname"),
                dictGet_dictSet_ne _ _ _ _ (by decide : ("patronymic" : String) ≠ "surname"),
                dictGet_dictSet_ne _ _ _ _ (by decide : ("name" : String) ≠ "surname"),
                dictGet_dictSet_self]
            · rw [dictGet_dictSet_ne _ _ _ _ (by decide : ("checks" : String) ≠ "name"),
                dictGet_dictSet_ne _ _ _ _ (by decide : ("patronymic" : String) ≠ "name"),
                dictGet_dictSet_self]
            · intro hlp
              rw [dictGet_dictSet_ne _ _ _ _ (by decide : ("checks" : String) ≠ "patronymic"),
                dictGet_dictSet_self, if_pos hlp]
      · next hco =>
          refine ⟨_, rfl, ?_, ?_, ?_⟩
          · constructor
            · intro hres
              unfold resolutionOf at hres
              dsimp only at hres
              rw [dictGet_dictSet_self] at hres
              dsimp only at hres
              rw [dictGet_dictSet_self] at hres
              have h1 : PyVal.str okTag = PyVal.str preferTag := Option.some.inj hres
              exact absurd (PyVal.str.inj h1).symm htag
            · intro hcon
              exact absurd hcon hco
          · intro _
            unfold resolutionOf
            dsimp only
            rw [dictGet_dictSet_self]
            dsimp only
            rw [dictGet_dictSet_self]
          · intro hcon
            exact absurd hcon hco

/-- Concrete FIO record whose front-page raw reading has three tokens. -/
def fioC3 : List (String × PyVal) :=
  [("raw", PyVal.dict [("fio_left", PyVal.str "Иванов Петро Степанович".data)])]

/-- Resolution tag of a successful reconciliation result. -/
def reconResolution (e : Except PyErr PyVal) : Option PyVal :=
  match e with
  | .ok v => resolutionOf v
  | _ => Option.none

/-- Witness for C3: provided initials П/С match the derived initials of
(Иванов, Петро, Степанович), so the resolution tag is ok_or_no_conflict. -/
theorem c3_reconcile_conflict_witness :
    reconResolution (reconcileFio "П".data "С".data (.dict fioC3)) = some (.str okTag) := by
  obtain ⟨fd', h1, hiff, h3, h4⟩ := c3_reconcile_conflict fioC3
    [("fio_left", PyVal.str "Иванов Петро Степанович".data)]
    ("Иванов Петро Степанович".data) ("Иванов".data) ("Петро".data) ("Степанович".data)
    ("П".data) ("С".data) rfl rfl (by decide) trivial
  have hres := h3 (by unfold initialsConflict; decide)
  rw [h1]
  unfold reconResolution
  dsimp only
  exact hres

/-! ### Claim C4: parse_json_or_extract recovery behaviour -/

/-- The head of a non-empty dropWhile result fails the predicate. -/
theorem dropWhile_head_not (p : Char → Bool) (l : Str) (c : Char) (t : Str)
    (h : l.dropWhile p = c :: t) : p c = false := by
  induction l with
  | nil => simp [List.dropWhile] at h
  | cons a l ih =>
      by_cases ha : p a
      · simp only [List.dropWhile, ha] at h
        exact ih h
      · simp only [List.dropWhile, ha] at h
        injection h with h1 h2
        rw [← h1]
        simpa using ha

/-- Head of an append with non-empty left part. -/
theorem head?_append_left (l₁ l₂ : Str) (h : l₁ ≠ []) :
    (l₁ ++ l₂).head? = l₁.head? := by
  cases l₁ with
  | nil => exact absurd rfl h
  | cons a t => rfl

/-- Amended claim C4: parse_json_or_extract is total; it returns the parsed
value when the whole text is valid JSON, otherwise it retries on the greedy
brace span — the segment from the first opening brace through the last
closing brace (not the first balanced span) — and on total failure returns
the tagged bad_json object carrying the raw text. -/
theorem c4_parse_json_or_extract (s : Str) :
    (∀ v, pyJsonLoads s = some v → parse_json_or_extract s = v) ∧
    (pyJsonLoads s = Option.none → ∀ t, bracedSpan s = some t →
      ((∀ v, pyJsonLoads t = some v → parse_json_or_extract s = v) ∧
       (pyJsonLoads t = Option.none → parse_json_or_extract s = errObj s))) ∧
    (pyJsonLoads s = Option.none → bracedSpan s = Option.none →
      parse_json_or_extract s = errObj s) ∧
    (∀ t, bracedSpan s = some t → ∃ a b, s = a ++ t ++ b ∧
      '{' ∉ a ∧ '}' ∉ b ∧ t.head? = some '{' ∧ t.getLast? = some '}') := by
  refine ⟨?_, ?_, ?_, ?_⟩
  · intro v hv
    simp [parse_json_or_extract, hv]
  · intro hnone t hst
    constructor
    · intro v hv
      simp [parse_json_or_extract, hnone, hst, hv]
    · intro htn
      simp [parse_json_or_extract, hnone, hst, htn]
  · intro hnone hbn
    simp [parse_json_or_extract, hnone, hbn]
  · intro t h
    unfold bracedSpan at h
    cases hdw : s.dropWhile (fun c => !(c = '{')) with
    | nil => rw [hdw] at h; exact absurd h (by simp)
    | cons c1 t1 =>
        rw [hdw] at h
        dsimp only at h
        cases hdw2 : (c1 :: t1).reverse.dropWhile (fun c => !(c = '}')) with
        | nil =>
            rw [hdw2] at h
            simp at h
        | cons c2 t2 =>
            rw [hdw2] at h
            dsimp only at h
            have ht : t = (c2 :: t2).reverse := (Option.some.inj h).symm
            have hc1 : c1 = '{' := by
              have := dropWhile_head_not _ _ _ _ hdw
              simpa using this
            have hc2 : c2 = '}' := by
              have := dropWhile_head_not _ _ _ _ hdw2
              simpa using this
            refine ⟨s.takeWhile (fun c => !(c = '{')),
              ((c1 :: t1).reverse.takeWhile (fun c => !(c = '}'))).reverse,
              ?_, ?_, ?_, ?_, ?_⟩
            · have hs1 : s.takeWhile (fun c => !(c = '{')) ++ (c1 :: t1) = s := by
                rw [← hdw]
                exact List.takeWhile_append_dropWhile _ _
              have hs2 : (c1 :: t1).reverse.takeWhile (fun c => !(c = '}')) ++ (c2 :: t2) =
                  (c1 :: t1).reverse := by
                rw [← hdw2]
                exact List.takeWhile_append_dropWhile _ _
              have hs3 : c1 :: t1 =
                  (c2 :: t2).reverse ++
                    ((c1 :: t1).reverse.takeWhile (fun c => !(c = '}'))).reverse := by
                have := congrArg List.reverse hs2
                simpa using this.symm
              rw [ht]
              calc s = s.takeWhile (fun c => !(c = '{')) ++ (c1 :: t1) := hs1.symm
                _ = s.takeWhile (fun c => !(c = '{')) ++
                      ((c2 :: t2).reverse ++
                        ((c1 :: t1).reverse.takeWhile (fun c => !(c = '}'))).reverse) := by
                    rw [← hs3]
                _ = _ := by rw [← List.append_assoc]
            · intro hmem
              have := List.mem_takeWhile_imp hmem
              simp at this
            · intro hmem
              rw [List.mem_reverse] at hmem
              have := List.mem_takeWhile_imp hmem
              simp at this
            · have hne : t ≠ [] := by
                rw [ht]
                simp
              have hsplit : t ++ ((c1 :: t1).reverse.takeWhile (fun c => !(c = '}'))).reverse =
                  c1 :: t1 := by
                have hs2 : (c1 :: t1).reverse.takeWhile (fun c => !(c = '}')) ++ (c2 :: t2) =
                    (c1 :: t1).reverse := by
                  rw [← hdw2]
                  exact List.takeWhile_append_dropWhile _ _
                have := congrArg List.reverse hs2
                rw [ht]
                simpa using this
              have happ := head?_append_left t
                (((c1 :: t1).reverse.takeWhile (fun c => !(c = '}'))).reverse) hne
              rw [hsplit] at happ
              rw [← happ, hc1]
              rfl
            · have hrev : t.reverse = c2 :: t2 := by
                rw [ht]
                simp
              rw [← List.head?_reverse, hrev, hc2]
              rfl

/-- Counterexample to claim C4 as stated: on text wrapping two JSON objects,
the recovery parses the greedy first-brace-to-last-brace span (which is not
valid JSON) and returns the bad_json object, whereas extracting the first
balanced brace span would have recovered the first object. -/
theorem c4_counterexample :
    parse_json_or_extract "x\x7b\"a\": 1\x7dy\x7b\"b\": 2\x7d".data =
      errObj "x\x7b\"a\": 1\x7dy\x7b\"b\": 2\x7d".data ∧
    firstBalancedSpan "x\x7b\"a\": 1\x7dy\x7b\"b\": 2\x7d".data = some "\x7b\"a\": 1\x7d".data ∧
    pyJsonLoads "\x7b\"a\": 1\x7d".data = some (.dict [("a", .num 1)]) :=
  ⟨rfl, rfl, rfl⟩

/-- Witness for the amended C4: wrapped JSON with a single object is
recovered through the greedy brace span. -/
theorem c4_parse_json_or_extract_witness :
    parse_json_or_extract "json: \x7b\"k\": 5\x7d end".data = .dict [("k", .num 5)] := by
  have h := (c4_parse_json_or_extract ("json: \x7b\"k\": 5\x7d end".data)).2.1 rfl
    ("\x7b\"k\": 5\x7d".data) rfl
  exact h.1 _ rfl

/-! ### Claim C6: crop_percent pixel-box bounds -/

/-- One axis of the crop: 0 ≤ a ≤ b ≤ 1 scaled by the image size and
truncated stays within [0, n], monotonically. -/
theorem cropAxis_bounds (n : ℕ) (a b : ℚ) (ha : 0 ≤ a) (hab : a ≤ b) (hb : b ≤ 1) :
    0 ≤ pyTrunc (a * n) ∧ pyTrunc (a * n) ≤ pyTrunc (b * n) ∧
      pyTrunc (b * n) ≤ (n : ℤ) := by
  have hn : (0 : ℚ) ≤ (n : ℚ) := by positivity
  have ha' : 0 ≤ a * n := mul_nonneg ha hn
  have hb' : 0 ≤ b * n := mul_nonneg (le_trans ha hab) hn
  have hta : pyTrunc (a * n) = ⌊a * (n : ℚ)⌋ := by
    rw [pyTrunc, if_neg (not_lt.mpr ha')]
  have htb : pyTrunc (b * n) = ⌊b * (n : ℚ)⌋ := by
    rw [pyTrunc, if_neg (not_lt.mpr hb')]
  refine ⟨?_, ?_, ?_⟩
  · rw [hta]
    exact Int.floor_nonneg.mpr ha'
  · rw [hta, htb]
    exact Int.floor_le_floor (mul_le_mul_of_nonneg_right hab hn)
  · rw [htb]
    have : b * (n : ℚ) ≤ (n : ℚ) := by
      calc b * (n : ℚ) ≤ 1 * (n : ℚ) := mul_le_mul_of_nonneg_right hb hn
        _ = (n : ℚ) := one_mul _
    calc ⌊b * (n : ℚ)⌋ ≤ ⌊(n : ℚ)⌋ := Int.floor_le_floor this
      _ = (n : ℤ) := Int.floor_natCast n

/-- Amended claim C6: for a fractional rectangle within [0,1] with positive
extent and pad in [0, 1/2), the pixel box of crop_percent satisfies
0 ≤ X0 ≤ X1 ≤ width and 0 ≤ Y0 ≤ Y1 ≤ height (the strict inequalities
X0 < X1, Y0 < Y1 of the original claim can fail, see c6_counterexample). -/
theorem c6_crop_box_amended (w h : ℕ) (x0 y0 x1 y1 pad : ℚ)
    (hx0 : 0 ≤ x0) (hx : x0 < x1) (hx1 : x1 ≤ 1)
    (hy0 : 0 ≤ y0) (hy : y0 < y1) (hy1 : y1 ≤ 1)
    (hp0 : 0 ≤ pad) (hp : pad < 1/2) :
    0 ≤ (crop_percent w h (x0, y0, x1, y1) pad).X0 ∧
    (crop_percent w h (x0, y0, x1, y1) pad).X0 ≤ (crop_percent w h (x0, y0, x1, y1) pad).X1 ∧
    (crop_percent w h (x0, y0, x1, y1) pad).X1 ≤ (w : ℤ) ∧
    0 ≤ (crop_percent w h (x0, y0, x1, y1) pad).Y0 ∧
    (crop_percent w h (x0, y0, x1, y1) pad).Y0 ≤ (crop_percent w h (x0, y0, x1, y1) pad).Y1 ∧
    (crop_percent w h (x0, y0, x1, y1) pad).Y1 ≤ (h : ℤ) := by
  unfold crop_percent
  dsimp only
  by_cases hpz : pad = 0
  · rw [if_neg (by simp [hpz])]
    obtain ⟨a1, a2, a3⟩ := cropAxis_bounds w x0 x1 hx0 (le_of_lt hx) hx1
    obtain ⟨b1, b2, b3⟩ := cropAxis_bounds h y0 y1 hy0 (le_of_lt hy) hy1
    exact ⟨a1, a2, a3, b1, b2, b3⟩
  · rw [if_pos hpz]
    have hx1pos : 0 < x1 := lt_of_le_of_lt hx0 hx
    have hy1pos : 0 < y1 := lt_of_le_of_lt hy0 hy
    have hxa : (0 : ℚ) ≤ max 0 (x0 - pad) := le_max_left 0 _
    have hxab : max 0 (x0 - pad) ≤ min 1 (x1 + pad) := by
      refine le_min (max_le (by norm_num) (by linarith)) (max_le (by linarith) (by linarith))
    have hxb : min 1 (x1 + pad) ≤ 1 := min_le_left 1 _
    have hya : (0 : ℚ) ≤ max 0 (y0 - pad) := le_max_left 0 _
    have hyab : max 0 (y0 - pad) ≤ min 1 (y1 + pad) := by
      refine le_min (max_le (by norm_num) (by linarith)) (max_le (by linarith) (by linarith))
    have hyb : min 1 (y1 + pad) ≤ 1 := min_le_left 1 _
    obtain ⟨a1, a2, a3⟩ := cropAxis_bounds w _ _ hxa hxab hxb
    obtain ⟨b1, b2, b3⟩ := cropAxis_bounds h _ _ hya hyab hyb
    exact ⟨a1, a2, a3, b1, b2, b3⟩

/-- Counterexample to claim C6 as stated: with a 10x10 image, rectangle
(0.52, 0.52, 0.53, 0.53) and pad 0.01 — all within the claim's preconditions
— the padded rectangle spans less than one pixel row and column, so the
truncated box degenerates to X0 = X1 and Y0 = Y1, refuting 0 ≤ X0 < X1 and
0 ≤ Y0 < Y1. -/
theorem c6_counterexample :
    ((0:ℚ) ≤ 52/100 ∧ (52:ℚ)/100 < 53/100 ∧ (53:ℚ)/100 ≤ 1 ∧
     (0:ℚ) ≤ 1/100 ∧ (1:ℚ)/100 < 1/2 ∧ 0 < 10) ∧
    crop_percent 10 10 (52/100, 52/100, 53/100, 53/100) (1/100) = ⟨5, 5, 5, 5⟩ ∧
    ¬ ((5 : ℤ) < 5) := by
  refine ⟨⟨by norm_num, by norm_num, by norm_num, by norm_num, by norm_num, by norm_num⟩,
    ?_, by norm_num⟩
  unfold crop_percent
  dsimp only
  rw [if_pos (by norm_num : (1/100 : ℚ) ≠ 0)]
  have h1 : max (0:ℚ) (52/100 - 1/100) = 51/100 := by
    rw [max_eq_right (by norm_num : (0:ℚ) ≤ 52/100 - 1/100)]
    norm_num
  have h2 : min (1:ℚ) (53/100 + 1/100) = 54/100 := by
    rw [min_eq_right (by norm_num : (53:ℚ)/100 + 1/100 ≤ 1)]
    norm_num
  rw [h1, h2]
  dsimp only
  simp only [pyTrunc]
  norm_num [PxBox.mk.injEq]

/-- Witness for the amended C6 at a concrete image and rectangle. -/
theorem c6_crop_box_amended_witness :
    0 ≤ (crop_percent 10 10 (52/100, 52/100, 53/100, 53/100) (1/100)).X0 ∧
    (crop_percent 10 10 (52/100, 52/100, 53/100, 53/100) (1/100)).X0 ≤
      (crop_percent 10 10 (52/100, 52/100, 53/100, 53/100) (1/100)).X1 ∧
    (crop_percent 10 10 (52/100, 52/100, 53/100, 53/100) (1/100)).X1 ≤ ((10:ℕ) : ℤ) ∧
    0 ≤ (crop_percent 10 10 (52/100, 52/100, 53/100, 53/100) (1/100)).Y0 ∧
    (crop_percent 10 10 (52/100, 52/100, 53/100, 53/100) (1/100)).Y0 ≤
      (crop_percent 10 10 (52/100, 52/100, 53/100, 53/100) (1/100)).Y1 ∧
    (crop_percent 10 10 (52/100, 52/100, 53/100, 53/100) (1/100)).Y1 ≤ ((10:ℕ) : ℤ) :=
  c6_crop_box_amended 10 10 (52/100) (52/100) (53/100) (53/100) (1/100)
    (by norm_num) (by norm_num) (by norm_num) (by norm_num) (by norm_num) (by norm_num)
    (by norm_num) (by norm_num)

/-! ### Claim C10: downloader accounting -/

/-- The retry loop succeeds iff some attempt in the window succeeds. -/
theorem attemptLoopGo_iff (ok : ℕ → Bool) :
    ∀ rem a, attemptLoopGo ok a rem = true ↔
      ∃ k, a + 1 ≤ k ∧ k ≤ a + rem ∧ ok k = true := by
  intro rem
  induction rem with
  | zero =>
      intro a
      constructor
      · intro hh
        simp [attemptLoopGo] at hh
      · rintro ⟨k, h1, h2, -⟩
        omega
  | succ rem ih =>
      intro a
      by_cases hok : ok (a + 1) = true
      · constructor
        · intro _
          exact ⟨a + 1, by omega, by omega, hok⟩
        · intro _
          simp [attemptLoopGo, hok]
      · have hstep : attemptLoopGo ok a (rem + 1) = attemptLoopGo ok (a + 1) rem := by
          simp [attemptLoopGo, hok]
        rw [hstep, ih (a + 1)]
        constructor
        · rintro ⟨k, h1, h2, hk⟩
          exact ⟨k, by omega, by omega, hk⟩
        · rintro ⟨k, h1, h2, hk⟩
          refine ⟨k, ?_, by omega, hk⟩
          rcases Nat.lt_or_ge k (a + 2) with hlt | hge
          · have hke : k = a + 1 := by omega
            rw [hke] at hk
            exact absurd hk hok
          · omega

/-- Unrolling the downloader's fold: the final statistics are the initial
ones plus the per-index classification of the processed list. -/
theorem dl_foldl (world : DlWorld) (retries : ℕ) :
    ∀ (l : List ℤ) (st : DlStats),
      l.foldl (dlStep world retries) st =
        ⟨st.downloaded + (l.filter (fun i => !world.preExisting i &&
            attemptLoop (world.attemptOk i) retries)).length,
         st.skipped + (l.filter (fun i => world.preExisting i)).length,
         st.errors ++ l.filter (fun i => !world.preExisting i &&
            !attemptLoop (world.attemptOk i) retries)⟩ := by
  intro l
  induction l with
  | nil =>
      intro st
      cases st
      simp
  | cons i t ih =>
      intro st
      rw [List.foldl_cons, ih]
      unfold dlStep
      by_cases hpre : world.preExisting i = true
      · simp [hpre, List.filter_cons, DlStats.mk.injEq]
        try omega
      · by_cases hloop : attemptLoop (world.attemptOk i) retries = true
        · simp [hpre, hloop, List.filter_cons, DlStats.mk.injEq]
          try omega
        · simp [hpre, hloop, List.filter_cons, DlStats.mk.injEq]
          try omega

/-- Three mutually exclusive and jointly exhaustive Boolean predicates
partition the length of any list of indices. -/
theorem partition_count (p q r : ℤ → Bool)
    (hpqr : ∀ i, (p i = true ∧ q i = false ∧ r i = false) ∨
      (p i = false ∧ q i = true ∧ r i = false) ∨
      (p i = false ∧ q i = false ∧ r i = true)) :
    ∀ l : List ℤ,
      (l.filter p).length + (l.filter q).length + (l.filter r).length = l.length := by
  intro l
  induction l with
  | nil => simp
  | cons i t ih =>
      rcases hpqr i with ⟨h1, h2, h3⟩ | ⟨h1, h2, h3⟩ | ⟨h1, h2, h3⟩ <;>
        simp [List.filter_cons, h1, h2, h3] <;> omega

/-- Number of indices processed. -/
theorem dlIndices_length (start endIdx : ℤ) :
    (dlIndices start endIdx).length = (endIdx + 1 - start).toNat := by
  unfold dlIndices
  rw [List.length_map, List.length_range]

/-- Claim C10: every index of [start, end] is accounted for exactly once —
downloaded, skipped (non-empty completed file existed), or one error entry
after the retry budget is exhausted — so the three counts sum to
end − start + 1; the outcome of each index is determined by that index's
oracle alone (failures never block later indices); and the retry loop tries
attempts 1..retries+1. -/
theorem c10_download_range_accounting (start endIdx : ℤ) (retries : ℕ) (world : DlWorld)
    (h : start ≤ endIdx) :
    ((((download_image_range start endIdx retries world).downloaded +
       (download_image_range start endIdx retries world).skipped +
       (download_image_range start endIdx retries world).errors.length : ℕ) : ℤ) =
        endIdx - start + 1) ∧
    (download_image_range start endIdx retries world).errors =
      (dlIndices start endIdx).filter
        (fun i => !world.preExisting i && !attemptLoop (world.attemptOk i) retries) ∧
    (download_image_range start endIdx retries world).downloaded =
      ((dlIndices start endIdx).filter
        (fun i => !world.preExisting i && attemptLoop (world.attemptOk i) retries)).length ∧
    (download_image_range start endIdx retries world).skipped =
      ((dlIndices start endIdx).filter (fun i => world.preExisting i)).length ∧
    (∀ ok : ℕ → Bool, attemptLoop ok retries = true ↔
      ∃ k, 1 ≤ k ∧ k ≤ retries + 1 ∧ ok k = true) := by
  have hfold := dl_foldl world retries (dlIndices start endIdx) ⟨0, 0, []⟩
  unfold download_image_range
  rw [hfold]
  dsimp only
  refine ⟨?_, by simp, by simp, by simp, ?_⟩
  · have hpart := partition_count
      (fun i => !world.preExisting i && attemptLoop (world.attemptOk i) retries)
      (fun i => world.preExisting i)
      (fun i => !world.preExisting i && !attemptLoop (world.attemptOk i) retries)
      ?hexh (dlIndices start endIdx)
    case hexh =>
      intro i
      by_cases hpre : world.preExisting i = true
      · exact Or.inr (Or.inl (by simp [hpre]))
      · by_cases hloop : attemptLoop (world.attemptOk i) retries = true
        · exact Or.inl (by simp [hpre, hloop])
        · exact Or.inr (Or.inr (by simp [hpre, hloop]))
    rw [dlIndices_length] at hpart
    have hznn : (0 : ℤ) ≤ endIdx + 1 - start := by omega
    have := Int.toNat_of_nonneg hznn
    simp only [Nat.zero_add, List.nil_append]
    push_cast [hpart]
    omega
  · intro ok
    unfold attemptLoop
    rw [attemptLoopGo_iff]
    constructor
    · rintro ⟨k, h1, h2, hk⟩
      exact ⟨k, by omega, by omega, hk⟩
    · rintro ⟨k, h1, h2, hk⟩
      exact ⟨k, by omega, by omega, hk⟩

/-- Concrete download world: index 1 already has a completed file, index 2
succeeds on its second attempt, index 3 always fails. -/
def dlWorldW : DlWorld :=
  ⟨fun i => decide (i = 1), fun i k => decide (i = 2 ∧ k = 2)⟩

/-- Witness for C10 over the range [1, 3] with retries = 2. -/
theorem c10_download_range_accounting_witness :
    ((((download_image_range 1 3 2 dlWorldW).downloaded +
       (download_image_range 1 3 2 dlWorldW).skipped +
       (download_image_range 1 3 2 dlWorldW).errors.length : ℕ) : ℤ) = 3 - 1 + 1) :=
  (c10_download_range_accounting 1 3 2 dlWorldW (by norm_num)).1

/-! ### Claim C7: nearest-following pairing -/

/-- Totality of the Python string order. -/
theorem strLeB_total : ∀ a b : Str, strLeB a b = true ∨ strLeB b a = true := by
  intro a
  induction a with
  | nil => intro b; left; rfl
  | cons x s ih =>
      intro b
      cases b with
      | nil => right; rfl
      | cons y t =>
          rcases Nat.lt_trichotomy x.toNat y.toNat with h | h | h
          · left
            simp only [strLeB]
            rw [if_pos h]
          · rcases ih t with h2 | h2
            · left
              simp only [strLeB]
              rw [if_neg (by omega), if_neg (by omega)]
              exact h2
            · right
              simp only [strLeB]
              rw [if_neg (by omega), if_neg (by omega)]
              exact h2
          · right
            simp only [strLeB]
            rw [if_pos h]

/-- Transitivity of the Python string order. -/
theorem strLeB_trans : ∀ a b c : Str,
    strLeB a b = true → strLeB b c = true → strLeB a c = true := by
  intro a
  induction a with
  | nil => intro b c _ _; rfl
  | cons x s ih =>
      intro b c hab hbc
      cases b with
      | nil => simp [strLeB] at hab
      | cons y t =>
          cases c with
          | nil => simp [strLeB] at hbc
          | cons z u =>
              simp only [strLeB] at hab ⊢
              simp only [strLeB] at hbc
              have hxy : x.toNat < y.toNat ∨
                  (¬ x.toNat < y.toNat ∧ ¬ y.toNat < x.toNat ∧ strLeB s t = true) := by
                by_cases h1 : x.toNat < y.toNat
                · exact Or.inl h1
                · right
                  by_cases h2 : y.toNat < x.toNat
                  · rw [if_neg h1, if_pos h2] at hab
                    exact absurd hab (by simp)
                  · rw [if_neg h1, if_neg h2] at hab
                    exact ⟨h1, h2, hab⟩
              have hyz : y.toNat < z.toNat ∨
                  (¬ y.toNat < z.toNat ∧ ¬ z.toNat < y.toNat ∧ strLeB t u = true) := by
                by_cases g1 : y.toNat < z.toNat
                · exact Or.inl g1
                · right
                  by_cases g2 : z.toNat < y.toNat
                  · rw [if_neg g1, if_pos g2] at hbc
                    exact absurd hbc (by simp)
                  · rw [if_neg g1, if_neg g2] at hbc
                    exact ⟨g1, g2, hbc⟩
              rcases hxy with h | ⟨h1, h1', hst⟩ <;> rcases hyz with g | ⟨g1, g1', htu⟩
              · rw [if_pos (by omega : x.toNat < z.toNat)]
              · rw [if_pos (by omega : x.toNat < z.toNat)]
              · rw [if_pos (by omega : x.toNat < z.toNat)]
              · rw [if_neg (by omega : ¬ x.toNat < z.toNat),
                  if_neg (by omega : ¬ z.toNat < x.toNat)]
                exact ih t u hst htu

instance pyLe_isTotal : IsTotal Str pyLe := ⟨fun a b => strLeB_total a b⟩

instance pyLe_isTrans : IsTrans Str pyLe := ⟨fun a b c => strLeB_trans a b c⟩

/-- sortPy sorts with respect to the Python order. -/
theorem sortPy_sorted (l : List Str) : List.Pairwise pyLe (sortPy l) :=
  List.sorted_insertionSort pyLe l

/-- sortPy preserves membership. -/
theorem mem_sortPy (a : Str) (l : List Str) : a ∈ sortPy l ↔ a ∈ l :=
  (List.perm_insertionSort pyLe l).mem_iff

/-- Head membership. -/
theorem headMemStr {l : List Str} {c : Str} (h : l.head? = some c) : c ∈ l := by
  cases l with
  | nil => exact absurd h (by simp)
  | cons a t =>
      rw [List.head?_cons] at h
      obtain rfl := Option.some.inj h
      exact List.mem_cons_self _ _

/-- The head of a sorted list is its minimum. -/
theorem sorted_head_eq_min : ∀ l : List Str, List.Pairwise pyLe l →
    l.head? = listMinStr l := by
  intro l
  induction l with
  | nil => intro _; rfl
  | cons x t ih =>
      intro hp
      have ht := List.Pairwise.of_cons hp
      rw [List.head?_cons]
      unfold listMinStr
      cases hm : listMinStr t with
      | none => rfl
      | some m =>
          have hmem : m ∈ t := by
            have := ih ht
            rw [hm] at this
            exact headMemStr this
          have hxm : strLeB x m = true := List.rel_of_pairwise_cons hp hmem
          simp [hxm]

/-- A Boolean contains that is false excludes membership. -/
theorem not_mem_of_contains_false {l : List Str} {c : Str}
    (h : l.contains c = false) : c ∉ l := by
  intro hmem
  have h2 : l.elem c = true := List.elem_iff.mpr hmem
  have h3 : l.contains c = true := h2
  rw [h3] at h
  exact absurd h (by simp)

/-- Non-empty strings are truthy options. -/
theorem truthyStrOpt_of_ne {c : Str} (h : c ≠ []) : truthyStrOpt (some c) = true := by
  have h2 : c.isEmpty = false := by
    cases c with
    | nil => exact absurd rfl h
    | cons a t => rfl
  simp [truthyStrOpt, h2]

/-- Refinement: the source's greedy loop equals the spec's minimum-based
selection loop whenever all list-page filenames are non-empty. -/
theorem pbnGo_eq_specGo (p2s : List Str) (hs : List.Pairwise pyLe p2s)
    (hne : ∀ s ∈ p2s, s ≠ []) :
    ∀ fronts used, pbnGo p2s fronts used = specGo p2s fronts used := by
  intro fronts
  induction fronts with
  | nil => intro used; rfl
  | cons p1 rest ih =>
      intro used
      have hcomm : p2s.filter (fun p2 => !used.contains p2 && strLeB p1 p2) =
          p2s.filter (fun a => strLeB p1 a && !used.contains a) :=
        List.filter_congr (fun a _ => by rw [Bool.and_comm])
      have hcand : (p2s.filter (fun p2 => !used.contains p2 && strLeB p1 p2)).head? =
          listMinStr ((p2s.filter (fun b => !used.contains b)).filter
            (fun b => strLeB p1 b)) := by
        rw [List.filter_filter, ← hcomm]
        exact sorted_head_eq_min _ (List.Pairwise.filter _ hs)
      have havail : (p2s.filter (fun b => !used.contains b)).head? =
          listMinStr (p2s.filter (fun b => !used.contains b)) :=
        sorted_head_eq_min _ (List.Pairwise.filter _ hs)
      unfold pbnGo specGo specChoose
      dsimp only
      rw [← hcand, ← havail]
      cases hc : (p2s.filter (fun p2 => !used.contains p2 && strLeB p1 p2)).head? with
      | some c =>
          have hcne : c ≠ [] := hne c (List.mem_of_mem_filter (headMemStr hc))
          rw [if_pos (truthyStrOpt_of_ne hcne)]
          have h2 : c.isEmpty = false := by
            cases c with
            | nil => exact absurd rfl hcne
            | cons a t => rfl
          dsimp only
          rw [h2]
          simp only [Bool.not_false, if_true]
          rw [ih (c :: used)]
      | none =>
          rw [if_neg (by simp [truthyStrOpt])]
          cases ha : (p2s.filter (fun b => !used.contains b)).head? with
          | some c =>
              have hcne : c ≠ [] := hne c (List.mem_of_mem_filter (headMemStr ha))
              have h2 : c.isEmpty = false := by
                cases c with
                | nil => exact absurd rfl hcne
                | cons a t => rfl
              dsimp only
              rw [h2]
              simp only [Bool.not_false, if_true]
              rw [ih (c :: used)]
          | none =>
              dsimp only
              exact ih used

/-- The chosen list pages of the greedy loop are pairwise distinct and avoid
the used set. -/
theorem pbnGo_snd_nodup (p2s : List Str) :
    ∀ fronts used, ((pbnGo p2s fronts used).map Prod.snd).Nodup ∧
      (∀ b ∈ (pbnGo p2s fronts used).map Prod.snd, b ∉ used) := by
  intro fronts
  induction fronts with
  | nil =>
      intro used
      exact ⟨by simp [pbnGo], by simp [pbnGo]⟩
  | cons p1 rest ih =>
      intro used
      unfold pbnGo
      dsimp only
      by_cases htr : truthyStrOpt
          ((p2s.filter (fun p2 => !used.contains p2 && strLeB p1 p2)).head?) = true
      · rw [if_pos htr]
        cases hc : (p2s.filter (fun p2 => !used.contains p2 && strLeB p1 p2)).head? with
        | none =>
            rw [hc] at htr
            simp [truthyStrOpt] at htr
        | some c =>
            have hcmem := headMemStr hc
            have hpred := List.of_mem_filter hcmem
            have hnotused : c ∉ used := by
              have h1 : used.contains c = false := by
                have := (Bool.and_eq_true _ _).mp hpred
                simpa using this.1
              exact not_mem_of_contains_false h1
            have hcne : c.isEmpty = false := by
              rw [hc] at htr
              simpa [truthyStrOpt] using htr
            dsimp only
            rw [if_pos (by simp [hcne])]
            obtain ⟨hnd, hnin⟩ := ih (c :: used)
            constructor
            · simp only [List.map_cons]
              refine List.nodup_cons.mpr ⟨?_, hnd⟩
              intro hcin
              exact (hnin c hcin) (List.mem_cons_self _ _)
            · intro b hb
              simp only [List.map_cons, List.mem_cons] at hb
              rcases hb with rfl | hb
              · exact hnotused
              · intro hbu
                exact (hnin b hb) (List.mem_cons_of_mem _ hbu)
      · rw [if_neg htr]
        cases ha : (p2s.filter (fun b => !used.contains b)).head? with
        | none => exact ih used
        | some c =>
            have hcmem := headMemStr ha
            have hpred := List.of_mem_filter hcmem
            have hnotused : c ∉ used := by
              have h1 : used.contains c = false := by simpa using hpred
              exact not_mem_of_contains_false h1
            dsimp only
            by_cases hce : c.isEmpty = true
            · rw [if_neg (by simp [hce])]
              exact ih used
            · have hce2 : c.isEmpty = false := by
                cases hcc : c.isEmpty with
                | false => rfl
                | true => exact absurd hcc hce
              rw [if_pos (by simp [hce2])]
              obtain ⟨hnd, hnin⟩ := ih (c :: used)
              constructor
              · simp only [List.map_cons]
                refine List.nodup_cons.mpr ⟨?_, hnd⟩
                intro hcin
                exact (hnin c hcin) (List.mem_cons_self _ _)
              · intro b hb
                simp only [List.map_cons, List.mem_cons] at hb
                rcases hb with rfl | hb
                · exact hnotused
                · intro hbu
                  exact (hnin b hb) (List.mem_cons_of_mem _ hbu)

/-- Claim C7: nearest-following pairing — the two concrete examples of the
spec; no list page is ever used twice; and, for non-empty filenames, the
greedy loop selects exactly the lexicographically smallest unused list page
sorted-after the front page, falling back to the smallest unused list page,
dropping front pages only when no unused list page remains (refinement to
the spec's minimum-based selection). -/
theorem c7_pair_nearest_following :
    (pair_by_nearest ["a".data, "c".data] ["b".data, "d".data] =
      [("a".data, "b".data), ("c".data, "d".data)]) ∧
    (pair_by_nearest ["b".data] ["a".data] = [("b".data, "a".data)]) ∧
    (∀ fronts lists : List Str, ((pair_by_nearest fronts lists).map Prod.snd).Nodup) ∧
    (∀ fronts lists : List Str, (∀ s ∈ lists, s ≠ []) →
      pair_by_nearest fronts lists = specNearestFollowing fronts lists) := by
  refine ⟨by decide, by decide, ?_, ?_⟩
  · intro fronts lists
    exact (pbnGo_snd_nodup (sortPy lists) (sortPy fronts) []).1
  · intro fronts lists hne
    exact pbnGo_eq_specGo (sortPy lists) (sortPy_sorted lists)
      (fun s hs => hne s ((mem_sortPy s lists).mp hs)) (sortPy fronts) []

/-- Witness for C7 at the spec's fallback example. -/
theorem c7_pair_nearest_following_witness :
    pair_by_nearest ["b".data] ["a".data] =
      specNearestFollowing ["b".data] ["a".data] :=
  c7_pair_nearest_following.2.2.2 ["b".data] ["a".data] (by decide)

/-! ### Claim C8: enforce-initials and the final patronymic -/

/-- Shape condition: the FIO response's patronymic is absent, None, or a
string. -/
def patShapeOk (fo : PyVal) : Prop :=
  match fo with
  | .dict fd =>
    (match dictGet fd "patronymic" with
      | Option.none => True
      | some .none => True
      | some (.str _) => True
      | some _ => False)
  | _ => True

/-- The patronymic invariant guaranteed right after the enforce-initials
post-check: absent, None, or a string starting with the provided initial. -/
def patGood (ip : Str) (v : PyVal) : Prop :=
  match v with
  | .dict fd =>
    (match dictGet fd "patronymic" with
      | Option.none => True
      | some .none => True
      | some (.str s) => ip.isPrefixOf (upperPy s) = true
      | some _ => False)
  | _ => True

/-- The weakened invariant holding of the final record: the patronymic is
absent, None, a string starting with the provided initial, or the record was
overwritten by the reconciliation conflict branch (tagged prefer-front). -/
def patRespectedVal (ip : Str) (v : PyVal) : Bool :=
  match v with
  | .dict fd =>
    (match dictGet fd "patronymic" with
      | Option.none => true
      | some .none => true
      | some (.str s) =>
          ip.isPrefixOf (upperPy s) ||
          (match resolutionOf v with
            | some (.str t) => decide (t = preferTag)
            | _ => false)
      | some _ => false)
  | _ => true

/-- The final-record check on a pipeline result. -/
def pipePatronymicOk (e : Except PyErr PipeOut) : Option Bool :=
  match e with
  | .ok out => some (patRespectedVal out.init_patr out.fio)
  | _ => Option.none

/-- Patronymic of the final FIO record of a pipeline result. -/
def pipeFioField (e : Except PyErr PipeOut) (k : String) : Option PyVal :=
  match e with
  | .ok out =>
    (match out.fio with
      | .dict fd => dictGet fd k
      | _ => Option.none)
  | _ => Option.none

/-- Normalized right-band patronymic initial of a pipeline result. -/
def pipeInitPatr (e : Except PyErr PipeOut) : Option Str :=
  match e with
  | .ok out => some out.init_patr
  | _ => Option.none

/-- The enforce-initials post-check establishes the patronymic invariant. -/
theorem enforcePatronymic_patGood (ip : Str) (fo : PyVal)
    (hip : ip ≠ []) (hshape : patShapeOk fo) :
    patGood ip (enforcePatronymic ip fo) := by
  cases fo with
  | dict fd =>
      unfold patShapeOk at hshape
      dsimp only at hshape
      unfold enforcePatronymic
      dsimp only
      cases hput : dictGet fd "patronymic" with
      | none =>
          dsimp only
          unfold patGood
          dsimp only
          rw [hput]
          trivial
      | some v =>
          rw [hput] at hshape
          cases v with
          | str pat =>
              dsimp only
              by_cases hpre : ip.isPrefixOf (upperPy pat) = true
              · rw [if_neg (by intro hcon; exact hcon.2 hpre)]
                unfold patGood
                dsimp only
                rw [hput]
                exact hpre
              · rw [if_pos ⟨hip, hpre⟩]
                unfold patGood
                dsimp only
                rw [dictGet_dictSet_self]
                trivial
          | none =>
              dsimp only
              unfold patGood
              dsimp only
              rw [hput]
              trivial
          | bool b => simp at hshape
          | num q => simp at hshape
          | dict d => simp at hshape
          | list xs => simp at hshape
  | none => trivial
  | bool b => trivial
  | num q => trivial
  | str s => trivial
  | list xs => trivial

/-- The post-enforce invariant implies the final-record check. -/
theorem patGood_respected (ip : Str) (v : PyVal) (h : patGood ip v) :
    patRespectedVal ip v = true := by
  cases v with
  | dict fd =>
      unfold patGood at h
      dsimp only at h
      unfold patRespectedVal
      dsimp only
      cases hput : dictGet fd "patronymic" with
      | none => rfl
      | some w =>
          rw [hput] at h
          cases w with
          | none => rfl
          | str s =>
              dsimp only at h ⊢
              rw [h]
              rfl
          | bool b => simp at h
          | num q => simp at h
          | dict d => simp at h
          | list xs => simp at h
  | none => rfl
  | bool b => rfl
  | num q => rfl
  | str s => rfl
  | list xs => rfl

/-- Resolution read-back after the final checks write. -/
theorem resolutionOf_set (fdX c1 : List (String × PyVal)) (tag : PyVal) :
    resolutionOf (.dict (dictSet fdX "checks" (.dict (dictSet c1 "resolution" tag)))) =
      some tag := by
  unfold resolutionOf
  dsimp only
  rw [dictGet_dictSet_self]
  dsimp only
  rw [dictGet_dictSet_self]

/-- Reconciliation preserves the weakened patronymic invariant: the final
record's patronymic is absent, None, prefix-consistent, or stamped with the
prefer-front conflict tag. -/
theorem reconcile_patRespected (inN ip : Str) (fio1 f2 : PyVal)
    (hgood : patGood ip fio1)
    (hrec : reconcileFio inN ip fio1 = .ok f2) :
    patRespectedVal ip f2 = true := by
  cases fio1 with
  | dict fd1 =>
      unfold reconcileFio at hrec
      dsimp only at hrec
      cases hrawv : pyOr ((dictGet fd1 "raw").getD .none) (.dict []) with
      | dict rd =>
          rw [hrawv] at hrec
          dsimp only [Bind.bind, Except.bind] at hrec
          cases hsp : split_fio_left (pyOr ((dictGet rd "fio_left").getD .none) (.str [])) with
          | none =>
              rw [hsp] at hrec
              dsimp only at hrec
              have hf2 : PyVal.dict fd1 = f2 := Except.ok.inj hrec
              rw [← hf2]
              exact patGood_respected ip _ hgood
          | some trip =>
              obtain ⟨ls, ln, lp⟩ := trip
              rw [hsp] at hrec
              dsimp only at hrec
              cases hc : dictGet fd1 "checks" with
              | none =>
                  rw [hc] at hrec
                  dsimp only at hrec
                  split at hrec
                  · next hco =>
                      have hf2 := Except.ok.inj hrec
                      rw [← hf2]
                      unfold patRespectedVal
                      dsimp only
                      rw [dictGet_dictSet_ne _ _ _ _
                          (by decide : ("checks" : String) ≠ "patronymic"),
                        dictGet_dictSet_self]
                      by_cases hlp : lp ≠ []
                      · rw [if_pos hlp]
                        dsimp only
                        rw [resolutionOf_set]
                        simp
                      · rw [if_neg hlp]
                        rw [dictGet_dictSet_ne _ _ _ _
                            (by decide : ("name" : String) ≠ "patronymic"),
                          dictGet_dictSet_ne _ _ _ _
                            (by decide : ("surname" : String) ≠ "patronymic"),
                          dictGet_dictSet_ne _ _ _ _
                            (by decide : ("checks" : String) ≠ "patronymic")]
                        unfold patGood at hgood
                        dsimp only at hgood
                        cases hput : dictGet fd1 "patronymic" with
                        | none => rfl
                        | some w =>
                            rw [hput] at hgood
                            cases w with
                            | none => rfl
                            | str s =>
                                try simp only [Option.getD_some]
                                dsimp only at hgood ⊢
                                rw [hgood]
                                rfl
                            | bool b => simp at hgood
                            | num q => simp at hgood
                            | dict d => simp at hgood
                            | list xs => simp at hgood
                  · next hco =>
                      have hf2 := Except.ok.inj hrec
                      rw [← hf2]
                      unfold patRespectedVal
                      dsimp only
                      rw [dictGet_dictSet_ne _ _ _ _
                          (by decide : ("checks" : String) ≠ "patronymic"),
                        dictGet_dictSet_ne _ _ _ _
                          (by decide : ("checks" : String) ≠ "patronymic")]
                      unfold patGood at hgood
                      dsimp only at hgood
                      cases hput : dictGet fd1 "patronymic" with
                      | none => rfl
                      | some w =>
                          rw [hput] at hgood
                          cases w with
                          | none => rfl
                          | str s =>
                              try simp only [Option.getD_some]
                              dsimp only at hgood ⊢
                              rw [hgood]
                              rfl
                          | bool b => simp at hgood
                          | num q => simp at hgood
                          | dict d => simp at hgood
                          | list xs => simp at hgood
              | some v =>
                  rw [hc] at hrec
                  cases v with
                  | dict d =>
                      dsimp only at hrec
                      split at hrec
                      · next hco =>
                          have hf2 := Except.ok.inj hrec
                          rw [← hf2]
                          unfold patRespectedVal
                          dsimp only
                          rw [dictGet_dictSet_ne _ _ _ _
                              (by decide : ("checks" : String) ≠ "patronymic"),
                            dictGet_dictSet_self]
                          by_cases hlp : lp ≠ []
                          · rw [if_pos hlp]
                            dsimp only
                            rw [resolutionOf_set]
                            simp
                          · rw [if_neg hlp]
                            rw [dictGet_dictSet_ne _ _ _ _
                                (by decide : ("name" : String) ≠ "patronymic"),
                              dictGet_dictSet_ne _ _ _ _
                                (by decide : ("surname" : String) ≠ "patronymic"),
                              dictGet_dictSet_ne _ _ _ _
                                (by decide : ("checks" : String) ≠ "patronymic")]
                            unfold patGood at hgood
                            dsimp only at hgood
                            cases hput : dictGet fd1 "patronymic" with
                            | none => rfl
                            | some w =>
                                rw [hput] at hgood
                                cases w with
                                | none => rfl
                                | str s =>
                                    try simp only [Option.getD_some]
                                    dsimp only at hgood ⊢
                                    rw [hgood]
                                    rfl
                                | bool b => simp at hgood
                                | num q => simp at hgood
                                | dict d2 => simp at hgood
                                | list xs => simp at hgood
                      · next hco =>
                          have hf2 := Except.ok.inj hrec
                          rw [← hf2]
                          unfold patRespectedVal
                          dsimp only
                          rw [dictGet_dictSet_ne _ _ _ _
                              (by decide : ("checks" : String) ≠ "patronymic"),
                            dictGet_dictSet_ne _ _ _ _
                              (by decide : ("checks" : String) ≠ "patronymic")]
                          unfold patGood at hgood
                          dsimp only at hgood
                          cases hput : dictGet fd1 "patronymic" with
                          | none => rfl
                          | some w =>
                              rw [hput] at hgood
                              cases w with
                              | none => rfl
                              | str s =>
                                  try simp only [Option.getD_some]
                                  dsimp only at hgood ⊢
                                  rw [hgood]
                                  rfl
                              | bool b => simp at hgood
                              | num q => simp at hgood
                              | dict d2 => simp at hgood
                              | list xs => simp at hgood
                  | none => dsimp only at hrec; simp at hrec
                  | bool b => dsimp only at hrec; simp at hrec
                  | num q => dsimp only at hrec; simp at hrec
                  | str s => dsimp only at hrec; simp at hrec
                  | list xs => dsimp only at hrec; simp at hrec
      | none =>
          rw [hrawv] at hrec
          dsimp only [Bind.bind, Except.bind] at hrec
          simp at hrec
      | bool b =>
          rw [hrawv] at hrec
          dsimp only [Bind.bind, Except.bind] at hrec
          simp at hrec
      | num q =>
          rw [hrawv] at hrec
          dsimp only [Bind.bind, Except.bind] at hrec
          simp at hrec
      | str s =>
          rw [hrawv] at hrec
          dsimp only [Bind.bind, Except.bind] at hrec
          simp at hrec
      | list xs =>
          rw [hrawv] at hrec
          dsimp only [Bind.bind, Except.bind] at hrec
          simp at hrec
  | none =>
      have hf2 : PyVal.none = f2 := Except.ok.inj hrec
      rw [← hf2]
      rfl
  | bool b =>
      have hf2 : PyVal.bool b = f2 := Except.ok.inj hrec
      rw [← hf2]
      rfl
  | num q =>
      have hf2 : PyVal.num q = f2 := Except.ok.inj hrec
      rw [← hf2]
      rfl
  | str s =>
      have hf2 : PyVal.str s = f2 := Except.ok.inj hrec
      rw [← hf2]
      rfl
  | list xs =>
      have hf2 : PyVal.list xs = f2 := Except.ok.inj hrec
      rw [← hf2]
      rfl

/-- Amended claim C8: with enforce-initials active and a non-empty provided
patronymic initial, the final record's patronymic is null, a string starting
with the provided initial, or was overwritten by the reconciliation conflict
branch (stamped prefer_left_fio_due_to_initials_conflict) — the nulling runs
before reconciliation, so it does not survive a conflict overwrite
(see c8_counterexample for the unamended claim). -/
theorem c8_enforce_initials_amended (nat rt fo : PyVal) (out : PipeOut)
    (h : runPipelineCore nat rt fo true = .ok out)
    (hip : out.init_patr ≠ [])
    (hshape : patShapeOk fo) :
    patRespectedVal out.init_patr out.fio = true := by
  unfold runPipelineCore at h
  rw [except_bind_ok] at h
  obtain ⟨nv, -, h⟩ := h
  rw [except_bind_ok] at h
  obtain ⟨fl, -, h⟩ := h
  rw [except_bind_ok] at h
  obtain ⟨rs, -, h⟩ := h
  rw [except_bind_ok] at h
  obtain ⟨ini, -, h⟩ := h
  rw [except_bind_ok] at h
  obtain ⟨f2, hf2, h⟩ := h
  have hout :
      ({ nationality := nv, needs_manual_review := fl, r_surname := rs,
         init_name := ini.1, init_patr := ini.2, right_raw := rt,
         fio := f2 } : PipeOut) = out := Except.ok.inj h
  rw [← hout] at hip ⊢
  dsimp only at hip ⊢
  exact reconcile_patRespected ini.1 ini.2 _ f2
    (enforcePatronymic_patGood ini.2 fo hip hshape) hf2

/-- Nationality response used by the C8 inputs. -/
def natC8 : PyVal :=
  .dict [("is_jewish", .bool true), ("match", .str "евр".data), ("confidence", .num 1)]

/-- Right-band response: initials П / М. -/
def rightC8 : PyVal :=
  .dict [("surname", .str "Иванов".data),
    ("initials", .dict [("name", .str "П".data), ("patronymic", .str "М".data)])]

/-- FIO response whose raw front reading conflicts on the name initial and
carries a hyphen as its third token. -/
def fioC8 : PyVal :=
  .dict [("surname", .str "Иванов".data), ("name", .str "Петр".data),
    ("patronymic", .str "Сергеевич".data),
    ("raw", .dict [("fio_left", .str "Иванов Михаил -".data)])]

/-- Counterexample to claim C8 as stated: with enforce-initials active and
provided patronymic initial М, the final assembled record carries the
patronymic "-" (written by the reconciliation conflict overwrite after the
enforce nulling), which is non-null and does not begin with М. -/
theorem c8_counterexample :
    pipeInitPatr (runPipelineCore natC8 rightC8 fioC8 true) = some "М".data ∧
    pipeFioField (runPipelineCore natC8 rightC8 fioC8 true) "patronymic" =
      some (.str "-".data) ∧
    ("М".data).isPrefixOf (upperPy "-".data) = false :=
  ⟨rfl, rfl, rfl⟩

/-- Right-band response for the witness: initials П / С. -/
def rightC8w : PyVal :=
  .dict [("surname", .str "Иванов".data),
    ("initials", .dict [("name", .str "П".data), ("patronymic", .str "С".data)])]

/-- FIO response for the witness: consistent initials, patronymic kept. -/
def fioC8w : PyVal :=
  .dict [("surname", .str "Иванов".data), ("name", .str "Петр".data),
    ("patronymic", .str "Сергеевич".data),
    ("raw", .dict [("fio_left", .str "Иванов Петр Сергеевич".data)])]

/-- Witness for the amended C8 on a conflict-free run. -/
theorem c8_enforce_initials_amended_witness :
    pipePatronymicOk (runPipelineCore natC8 rightC8w fioC8w true) = some true := by
  have h := c8_enforce_initials_amended natC8 rightC8w fioC8w _ rfl
    (by decide) (by trivial)
  exact congrArg some h
